import Mathlib

/-!
Verification development for the Go rules engine, game tree and SGF
parser/generator of the `modern-go-sgf-viewer` repository.

The TypeScript sources are embedded shallowly: boards are lists of lists of
stone colors, in-place array mutation becomes functional update, and the
BFS over the board in `getGroupAndLiberties` is written with an explicit
fuel parameter (the source loop terminates because the visited set grows;
the fuel chosen below is proved sufficient).
-/

namespace GoViewer

/-- `StoneColor` from `types.ts`: `Black = 'B'`, `White = 'W'`, `Empty = 'E'`. -/
inductive StoneColor where
  | Black
  | White
  | Empty
deriving DecidableEq, Repr

/-- `Point` from `types.ts`: integer row/column pair.  TypeScript numbers
holding board coordinates are embedded as `Int` because neighbor offsets
(`r - 1`) can be negative. -/
structure Point where
  r : Int
  c : Int
deriving DecidableEq, Repr

/-- `StoneColor[][]` — a board is a list of rows. -/
abbrev Board := List (List StoneColor)

/-- Read `board[r][c]`.  Every read in the source is guarded by
`isInBounds`, so the default value for an out-of-range access is never
observable; `Empty` is used as that default. -/
def bget (b : Board) (p : Point) : StoneColor :=
  if 0 ≤ p.r ∧ 0 ≤ p.c then ((b.getD p.r.toNat []).getD p.c.toNat .Empty)
  else .Empty

/-- Write `board[r][c] = s` (functional).  Out-of-range writes (never
performed by the source) leave the board unchanged. -/
def bset (b : Board) (p : Point) (s : StoneColor) : Board :=
  if 0 ≤ p.r ∧ 0 ≤ p.c then b.set p.r.toNat ((b.getD p.r.toNat []).set p.c.toNat s)
  else b

/-- `cloneBoard` from `goLogic.ts`: `board.map(row => [...row])`.  In the
pure embedding a row copy is the row itself. -/
def cloneBoard (b : Board) : Board :=
  b.map (fun row => row.map id)

/-- `isInBounds` from `goLogic.ts`. -/
def isInBounds (r c : Int) (size : Nat) : Bool :=
  decide (0 ≤ r) && decide (r < (size : Int)) && decide (0 ≤ c) && decide (c < (size : Int))

/-- The four orthogonal neighbors, in the order the source lists them
(up, down, left, right). -/
def neighborsOf (p : Point) : List Point :=
  [⟨p.r - 1, p.c⟩, ⟨p.r + 1, p.c⟩, ⟨p.r, p.c - 1⟩, ⟨p.r, p.c + 1⟩]

/-- Result record of `getGroupAndLiberties`. -/
structure GroupLibs where
  group : List Point
  liberties : List Point
deriving DecidableEq, Repr

/-- One step of the neighbor scan inside the BFS loop of
`getGroupAndLiberties`: state is (queue, visited, liberties). -/
def glScanStep (b : Board) (color : StoneColor) (size : Nat)
    (st : List Point × List Point × List Point) (n : Point) :
    List Point × List Point × List Point :=
  if isInBounds n.r n.c size then
    if bget b n = .Empty then
      if st.2.2.contains n then st else (st.1, st.2.1, st.2.2 ++ [n])
    else if bget b n = color ∧ ¬ st.2.1.contains n then
      (st.1 ++ [n], st.2.1 ++ [n], st.2.2)
    else st
  else st

/-- The `while (q.length > 0)` loop of `getGroupAndLiberties`, with fuel.
Each iteration pops the queue head, appends it to the group and scans its
four neighbors.  `fuel = 0` returns the state reached so far; the caller
supplies enough fuel for the queue to drain first (proved below). -/
def glLoop (b : Board) (color : StoneColor) (size : Nat) :
    Nat → List Point → List Point → List Point → List Point → GroupLibs
  | 0, _, _, group, libs => ⟨group, libs⟩
  | _ + 1, [], _, group, libs => ⟨group, libs⟩
  | fuel + 1, curr :: rest, visited, group, libs =>
    let st := (neighborsOf curr).foldl (glScanStep b color size) (rest, visited, libs)
    glLoop b color size fuel st.1 st.2.1 (group ++ [curr]) st.2.2

/-- `getGroupAndLiberties` from `goLogic.ts`.  On an empty start point it
returns two empty lists; otherwise it flood-fills the same-colored group
and collects each adjacent empty point once. -/
def getGroupAndLiberties (b : Board) (startR startC : Int) : GroupLibs :=
  let size := b.length
  let color := bget b ⟨startR, startC⟩
  if color = .Empty then ⟨[], []⟩
  else glLoop b color size (size * size + 1) [⟨startR, startC⟩] [⟨startR, startC⟩] [] []

/-- `createEmptyBoard` from `goLogic.ts`. -/
def createEmptyBoard (size : Nat) : Board :=
  List.replicate size (List.replicate size StoneColor.Empty)

/-- `KoState` from `types.ts`. -/
structure KoState where
  koPoint : Option Point
  boardSnapshotBeforeKoTrigger : Option Board
deriving DecidableEq, Repr

/-- `ApplyMoveResult` from `goLogic.ts`; `error` holds the exact message
string the source returns (`some` on a rejected move, `none` on success). -/
structure ApplyMoveResult where
  newBoard : Board
  stonesCapturedInThisMove : List Point
  newKoState : KoState
  error : Option String
deriving DecidableEq, Repr

/-- `boardsAreEqual` from `goLogic.ts`: dimension and cell-wise equality.
(The source's null-checks have no counterpart for total values.) -/
def boardsAreEqual (b1 b2 : Board) : Bool :=
  b1.length == b2.length &&
    (List.zip b1 b2).all (fun pr =>
      pr.1.length == pr.2.length && (List.zip pr.1 pr.2).all (fun s => s.1 == s.2))

/-- `player === StoneColor.Black ? StoneColor.White : StoneColor.Black`. -/
def opponentColorOf (player : StoneColor) : StoneColor :=
  if player = .Black then .White else .Black

/-- The capture accumulation of the ko-rule check
(`goLogic.ts` lines 102–113): collect, de-duplicated, every stone of every
zero-liberty opponent group adjacent to `coord` on the speculative board. -/
def koCheckCaptureStep (tempBoard : Board) (opponent : StoneColor) (size : Nat)
    (acc : List Point) (n : Point) : List Point :=
  if isInBounds n.r n.c size ∧ bget tempBoard n = opponent then
    let gl := getGroupAndLiberties tempBoard n.r n.c
    if gl.liberties = [] then
      gl.group.foldl (fun a stone => if a.contains stone then a else a ++ [stone]) acc
    else acc
  else acc

/-- The ko-rule check of `applyMove` (`goLogic.ts` lines 91–125): returns
`true` exactly when the move is rejected with "Invalid move: Ko violation.". -/
def koRejects (originalBoard : Board) (player : StoneColor) (coord : Point)
    (currentKoState : KoState) : Bool :=
  match currentKoState.koPoint with
  | none => false
  | some kp =>
    if kp.r = coord.r ∧ kp.c = coord.c then
      let size := originalBoard.length
      let tempBoard := bset (cloneBoard originalBoard) coord player
      let opponent := if player = .Black then .White else .Black
      let caps := (neighborsOf coord).foldl (koCheckCaptureStep tempBoard opponent size) []
      let boardForKoComparison := caps.foldl (fun bd p => bset bd p .Empty) (cloneBoard tempBoard)
      match currentKoState.boardSnapshotBeforeKoTrigger with
      | some snap =>
        boardsAreEqual boardForKoComparison snap && caps.length == 1 &&
          (match caps with
           | p :: _ => bget originalBoard p == opponent
           | [] => false)
      | none => false
    else false

/-- One iteration of the capture loop of `applyMove`
(`goLogic.ts` lines 137–149): state is (board, captured list).  If the
neighbor holds the opponent's color and its group has no liberties, every
not-yet-removed stone of the group is removed and recorded. -/
def captureStep (size : Nat) (opponentColor : StoneColor)
    (st : Board × List Point) (n : Point) : Board × List Point :=
  if isInBounds n.r n.c size ∧ bget st.1 n = opponentColor then
    let gl := getGroupAndLiberties st.1 n.r n.c
    if gl.liberties = [] then
      gl.group.foldl
        (fun (st2 : Board × List Point) stone =>
          if bget st2.1 stone ≠ .Empty then (bset st2.1 stone .Empty, st2.2 ++ [stone])
          else st2)
        st
    else st
  else st

/-- The occupancy/bounds rejection condition of `applyMove`
(`goLogic.ts` line 86). -/
def occupiedOrOOB (board : Board) (coord : Point) : Bool :=
  !(isInBounds coord.r coord.c board.length) || bget board coord != .Empty

/-- The new-ko-state derivation of `applyMove` (`goLogic.ts` lines
158–177), computed from the post-capture board. -/
def deriveKoState (originalBoard newBoard : Board) (opponentColor : StoneColor)
    (coord : Point) (captured : List Point) : KoState :=
  match captured with
  | [capturedStonePos] =>
    let tempBoardForKoCheck := bset (cloneBoard newBoard) capturedStonePos opponentColor
    let glNew := getGroupAndLiberties tempBoardForKoCheck coord.r coord.c
    if glNew.liberties = [] then
      let boardAfterOpponentRecapture :=
        glNew.group.foldl (fun bd s => bset bd s .Empty) (cloneBoard tempBoardForKoCheck)
      if boardsAreEqual boardAfterOpponentRecapture originalBoard then
        ⟨some capturedStonePos, some (cloneBoard originalBoard)⟩
      else ⟨none, none⟩
    else ⟨none, none⟩
  | _ => ⟨none, none⟩

/-- `applyMove` from `goLogic.ts` (lines 77–180). -/
def applyMove (board : Board) (player : StoneColor) (coord : Point)
    (currentKoState : KoState) : ApplyMoveResult :=
  let size := board.length
  let originalBoard := cloneBoard board
  if occupiedOrOOB originalBoard coord then
    ⟨originalBoard, [], currentKoState,
      some "Invalid move: Point is not empty or out of bounds."⟩
  else if koRejects originalBoard player coord currentKoState then
    ⟨originalBoard, [], currentKoState, some "Invalid move: Ko violation."⟩
  else
    let newBoard0 := bset (cloneBoard originalBoard) coord player
    let opponentColor := opponentColorOf player
    let capRes := (neighborsOf coord).foldl (captureStep size opponentColor) (newBoard0, [])
    let ownGl := getGroupAndLiberties capRes.1 coord.r coord.c
    if ownGl.liberties = [] ∧ capRes.2 = [] then
      ⟨originalBoard, [], currentKoState, some "Invalid move: Suicide."⟩
    else
      ⟨capRes.1, capRes.2,
        deriveKoState originalBoard capRes.1 opponentColor coord capRes.2, none⟩

/-- The board-with-stone-placed and captured-stone list computed by the
capture loop of `applyMove` (before the suicide check). -/
def postCaptureState (board : Board) (player : StoneColor) (coord : Point) :
    Board × List Point :=
  (neighborsOf coord).foldl (captureStep board.length (opponentColorOf player))
    (bset board coord player, [])

/-- The qualifying condition of the new-ko-state derivation, phrased over
the pre-move board `orig`, the post-capture board `nb` and the captured
list `caps`: exactly one stone `p` was captured, an opponent stone placed
back on `p` would leave the just-played stone's group with zero liberties,
and removing that group reproduces the pre-move board exactly. -/
def KoTriggerCond (orig nb : Board) (opp : StoneColor) (coord : Point)
    (caps : List Point) (p : Point) : Prop :=
  caps = [p] ∧
  (getGroupAndLiberties (bset nb p opp) coord.r coord.c).liberties = [] ∧
  boardsAreEqual
    ((getGroupAndLiberties (bset nb p opp) coord.r coord.c).group.foldl
      (fun bd s => bset bd s .Empty) (bset nb p opp)) orig = true

/-- One step of same-color connectivity: `q` is an in-bounds neighbor of
`p` holding `color`. -/
def AdjStep (b : Board) (color : StoneColor) (size : Nat) (p q : Point) : Prop :=
  q ∈ neighborsOf p ∧ isInBounds q.r q.c size = true ∧ bget b q = color

/-- `p` is in the same-color component of `s`. -/
def Reaches (b : Board) (color : StoneColor) (size : Nat) (s p : Point) : Prop :=
  Relation.ReflTransGen (AdjStep b color size) s p

/-- Invariant of the BFS loop state of `getGroupAndLiberties`. -/
structure GlInv (b : Board) (color : StoneColor) (size : Nat) (s : Point)
    (queue visited group libs : List Point) : Prop where
  nodup_gq : (group ++ queue).Nodup
  vis_iff : ∀ p, p ∈ visited ↔ p ∈ group ∨ p ∈ queue
  vis_ok : ∀ p ∈ visited,
    isInBounds p.r p.c size = true ∧ bget b p = color ∧ Reaches b color size s p
  s_vis : s ∈ visited
  lb_nodup : libs.Nodup
  lb_ok : ∀ l ∈ libs, isInBounds l.r l.c size = true ∧ bget b l = .Empty ∧
    ∃ g ∈ group, l ∈ neighborsOf g
  lb_comp : ∀ g ∈ group, ∀ n ∈ neighborsOf g,
    isInBounds n.r n.c size = true → bget b n = .Empty → n ∈ libs
  frontier : ∀ g ∈ group, ∀ n ∈ neighborsOf g,
    isInBounds n.r n.c size = true → bget b n = color → n ∈ visited

/-- Invariant of the neighbor-scan fold inside one BFS iteration.  `done`
lists the neighbors of `curr` already processed; `oldGroup` is the group
before `curr` was appended. -/
structure ScanInv (b : Board) (color : StoneColor) (size : Nat) (s curr : Point)
    (oldGroup done : List Point) (q vis lb : List Point) : Prop where
  nodup_gq : ((oldGroup ++ [curr]) ++ q).Nodup
  vis_iff : ∀ p, p ∈ vis ↔ p ∈ oldGroup ++ [curr] ∨ p ∈ q
  vis_ok : ∀ p ∈ vis,
    isInBounds p.r p.c size = true ∧ bget b p = color ∧ Reaches b color size s p
  s_vis : s ∈ vis
  lb_nodup : lb.Nodup
  lb_ok : ∀ l ∈ lb, isInBounds l.r l.c size = true ∧ bget b l = .Empty ∧
    ∃ g ∈ oldGroup ++ [curr], l ∈ neighborsOf g
  lb_comp_old : ∀ g ∈ oldGroup, ∀ n ∈ neighborsOf g,
    isInBounds n.r n.c size = true → bget b n = .Empty → n ∈ lb
  fr_old : ∀ g ∈ oldGroup, ∀ n ∈ neighborsOf g,
    isInBounds n.r n.c size = true → bget b n = color → n ∈ vis
  done_lb : ∀ n ∈ done, isInBounds n.r n.c size = true → bget b n = .Empty → n ∈ lb
  done_fr : ∀ n ∈ done, isInBounds n.r n.c size = true → bget b n = color → n ∈ vis

/-- The source invariantly manipulates square boards (`createEmptyBoard`,
`cloneBoard`, cell updates); spec §3 likewise defines a board as a square
matrix.  Row raggedness is therefore excluded by hypothesis where a proof
needs cells addressed by `isInBounds` to physically exist. -/
def IsSquare (b : Board) : Prop := ∀ row ∈ b, row.length = b.length

/-- `p` belongs to a component removed through one of the already-processed
neighbors `ns`: some `n ∈ ns` was in bounds, held the opponent color on
the placed board `P`, its group had no liberties on `P`, and `p` is in
that group's component. -/
def RemovedBy (P : Board) (opp : StoneColor) (size : Nat) (ns : List Point)
    (p : Point) : Prop :=
  ∃ n ∈ ns, isInBounds n.r n.c size = true ∧ bget P n = opp ∧
    (getGroupAndLiberties P n.r n.c).liberties = [] ∧ Reaches P opp size n p

/-- Invariant of the capture loop of `applyMove` over the placed board `P`. -/
structure CapInv (P : Board) (opp : StoneColor) (size : Nat) (ns : List Point)
    (bd : Board) (caps : List Point) : Prop where
  len : bd.length = P.length
  sq : IsSquare bd
  removed_empty : ∀ p, RemovedBy P opp size ns p → bget bd p = .Empty
  not_removed : ∀ p, ¬ RemovedBy P opp size ns p → bget bd p = bget P p
  caps_iff : ∀ p, p ∈ caps ↔ RemovedBy P opp size ns p
  caps_nodup : caps.Nodup

/-- `SGF_MAX_SIZE` from `constants.ts` (value 19). -/
def SGF_MAX_SIZE : Nat := 19

/-- `DEFAULT_BOARD_SIZE` from `constants.ts`. -/
def DEFAULT_BOARD_SIZE : Nat := 19

/-- `sgfCharToCoord` from the SGF part of `goLogic.ts`:
`char.charCodeAt(0) - 'a'.charCodeAt(0)`.  (The source guard for a
non-single-character string cannot arise for a `Char` argument.) -/
def sgfCharToCoord (ch : Char) : Int :=
  (ch.toNat : Int) - 97

/-- `sgfCoordToPoint` from `goLogic.ts` (lines 207–218): a two-character
value, column first then row, accepted when both indices lie in
`[0, SGF_MAX_SIZE)`. -/
def sgfCoordToPoint (s : String) : Option Point :=
  match s.toList with
  | [c0, c1] =>
    let c := sgfCharToCoord c0
    let r := sgfCharToCoord c1
    if c < (SGF_MAX_SIZE : Int) ∧ r < (SGF_MAX_SIZE : Int) ∧ 0 ≤ c ∧ 0 ≤ r then
      some ⟨r, c⟩
    else none
  | _ => none

/-- The move-coordinate pipeline of `convertSgfSequenceToGameTree`
(`goLogic.ts` lines 388–399): decode the B/W property value with
`sgfCoordToPoint`, then null it out (a pass) when the decoded point lies
outside the board. -/
def moveCoordOnBoard (boardSize : Nat) (v : String) : Option Point :=
  match sgfCoordToPoint v with
  | some p => if (boardSize : Int) ≤ p.r ∨ (boardSize : Int) ≤ p.c then none else some p
  | none => none

/-- Raw parsed SGF node (`SgfNode` from `types.ts`), minus the transient
`parent` pointer and `_tempId` which carry no game content. -/
structure SgfNode where
  properties : List (String × List String)
  variations : List (List SgfNode)
deriving Repr

/-- JS object read `properties[k]`. -/
def getProp (props : List (String × List String)) (k : String) : Option (List String) :=
  (props.find? (fun kv => kv.1 = k)).map (fun kv => kv.2)

/-- JS object write `properties[k] = v` (overwrites an existing key). -/
def setProp (props : List (String × List String)) (k : String) (v : List String) :
    List (String × List String) :=
  if props.any (fun kv => kv.1 = k) then
    props.map (fun kv => if kv.1 = k then (k, v) else kv)
  else props ++ [(k, v)]

/-- The bracketed-value scan of the parser (`goLogic.ts` lines 257–271):
backslash escapes the next character; an unescaped `]` ends the value. -/
def parseValChars : List Char → Bool → String → String × List Char
  | [], _, acc => (acc, [])
  | ch :: rest, true, acc => parseValChars rest false (acc.push ch)
  | ch :: rest, false, acc =>
    if ch = '\\' then parseValChars rest true acc
    else if ch = ']' then (acc, ch :: rest)
    else parseValChars rest false (acc.push ch)

/-- Consume the closing `]` of a value when present
(`goLogic.ts` line 272). -/
def dropCloseBracket : List Char → List Char
  | ']' :: r2 => r2
  | r2 => r2

/-- The `while (text[i] === '[')` values loop (`goLogic.ts` lines
255–274): parse each bracketed value, consuming the closing `]` when
present.  Structural fuel (each iteration consumes the `[`, so any fuel
at least the remaining length is exact; fuel is threaded from the node
loop, which always passes enough). -/
def parseVals : Nat → List Char → List String → List String × List Char
  | 0, cs, acc => (acc, cs)
  | fuel + 1, '[' :: rest, acc =>
    parseVals fuel (dropCloseBracket (parseValChars rest false "").2)
      (acc ++ [(parseValChars rest false "").1])
  | _ + 1, cs, acc => (acc, cs)

/-- `String.prototype.toUpperCase` restricted to ASCII (the values
compared against are "W"/"B"). -/
def charUpper (c : Char) : Char :=
  if 'a' ≤ c ∧ c ≤ 'z' then Char.ofNat (c.toNat - 32) else c

def strUpper (s : String) : String :=
  String.mk (s.toList.map charUpper)

/-- The `/[A-Z]/` test of the property-name scan. -/
def isUpperAZ (c : Char) : Bool :=
  'A' ≤ c && c ≤ 'Z'

/-- The property loop of one node (`goLogic.ts` lines 242–275).  `none`
models the source's non-termination: a `[` encountered with no preceding
property name loops forever. -/
def parsePropsLoop : Nat → List Char → List (String × List String) →
    Option (List (String × List String) × List Char)
  | 0, _, _ => none
  | fuel + 1, cs, props =>
    match cs with
    | [] => some (props, [])
    | ch :: rest =>
      if ch = '(' ∨ ch = ')' ∨ ch = ';' then some (props, ch :: rest)
      else
        let pn := (ch :: rest).takeWhile isUpperAZ
        if pn.isEmpty then
          if ch = '[' then parsePropsLoop fuel (ch :: rest) props
          else parsePropsLoop fuel rest props
        else
          let afterName := (ch :: rest).dropWhile isUpperAZ
          let pv := parseVals fuel afterName []
          parsePropsLoop fuel pv.2 (setProp props (String.mk pn) pv.1)

/-- The node/variation loop of one sequence (`goLogic.ts` lines 231–298).
Returns the parsed node list, the variation branches that the source
would have attached to the enclosing context node (those parsed before
any node of this sequence existed), and the unconsumed remainder
(starting at the terminating `)` when there is one).  `none` models
non-termination (fuel exhaustion only). -/
def parseNodesLoop : Nat → List Char → List SgfNode → List (List SgfNode) →
    Option (List SgfNode × List (List SgfNode) × List Char)
  | 0, _, _, _ => none
  | fuel + 1, cs, nodes, extras =>
    match cs with
    | [] => some (nodes, extras, [])
    | ch :: rest =>
      if ch = ')' then some (nodes, extras, ch :: rest)
      else if ch = ';' then
        match parsePropsLoop fuel rest [] with
        | none => none
        | some (props, rest') =>
          parseNodesLoop fuel rest' (nodes ++ [⟨props, []⟩]) extras
      else if ch = '(' then
        match parseNodesLoop fuel rest [] [] with
        | none => none
        | some (innerNodes, innerExtras, rest') =>
          let rest2 := match rest' with
                       | ')' :: r2 => r2
                       | r2 => r2
          let newVars := innerExtras ++ (if innerNodes.isEmpty then [] else [innerNodes])
          match nodes.getLast? with
          | some last =>
            parseNodesLoop fuel rest2
              (nodes.dropLast ++ [⟨last.properties, last.variations ++ newVars⟩]) extras
          | none => parseNodesLoop fuel rest2 nodes (extras ++ newVars)
      else parseNodesLoop fuel rest nodes extras

/-- Fuel amply covering every terminating run of the parser loops. -/
def parseSgfFuel (n : Nat) : Nat :=
  (n + 2) * (n + 2)

/-- `String.prototype.trim` over the character list.  (Lean's own
`String.trim` is defined by well-founded recursion, which the kernel
cannot evaluate, so witnesses could not be checked through it.) -/
def trimChars (cs : List Char) : List Char :=
  ((cs.dropWhile Char.isWhitespace).reverse.dropWhile Char.isWhitespace).reverse

/-- `parseSgfIntoSequence` from `goLogic.ts` (lines 302–329).  Outer
`none` = the source diverges (fuel ran out); `some none` = the source
returns `null`; `some (some seq)` = the primary sequence. -/
def parseSgfIntoSequence (sgfText : String) : Option (Option (List SgfNode)) :=
  let t := trimChars sgfText.toList
  let t2opt : Option (List Char) :=
    if t.head? = some '(' ∧ t.getLast? = some ')' then some t
    else if t.head? = some ';' then some ('(' :: t ++ [')'])
    else none
  match t2opt with
  | none => some none
  | some t2 =>
    match t2.dropWhile (fun c => c ≠ '(') with
    | [] => some none
    | _ :: rest =>
      match parseNodesLoop (parseSgfFuel t2.length) rest [] [] with
      | none => none
      | some (nodes, _, _) =>
        if nodes.isEmpty then some none else some (some nodes)

/-- JS `parseInt(s)` (radix unspecified): trim, optional sign, `0x` hex
prefix, then leading digits; `none` models `NaN`. -/
def parseIntOpt (s : String) : Option Int :=
  let cs := trimChars s.toList
  let signed : Int × List Char :=
    match cs with
    | '-' :: r => (-1, r)
    | '+' :: r => (1, r)
    | _ => (1, cs)
  let hexDigit : Char → Bool := fun c =>
    ('0' ≤ c && c ≤ '9') || ('a' ≤ c && c ≤ 'f') || ('A' ≤ c && c ≤ 'F')
  let hexVal : Char → Nat := fun c =>
    if '0' ≤ c && c ≤ '9' then c.toNat - 48
    else if 'a' ≤ c && c ≤ 'f' then c.toNat - 87
    else c.toNat - 55
  match signed.2 with
  | '0' :: x :: r =>
    if x = 'x' ∨ x = 'X' then
      let hx := r.takeWhile hexDigit
      if hx.isEmpty then none
      else some (signed.1 * (hx.foldl (fun a c => a * 16 + hexVal c) 0 : Nat))
    else
      let ds := ('0' :: x :: r).takeWhile (fun c => '0' ≤ c && c ≤ '9')
      some (signed.1 * (ds.foldl (fun a c => a * 10 + (c.toNat - 48)) 0 : Nat))
  | cs2 =>
    let ds := cs2.takeWhile (fun c => '0' ≤ c && c ≤ '9')
    if ds.isEmpty then none
    else some (signed.1 * (ds.foldl (fun a c => a * 10 + (c.toNat - 48)) 0 : Nat))

/-- The `SZ` fallback scan of `parseSgf` (`goLogic.ts` lines 498–504):
the root's `SZ`, else the second sequence node's, else the first
variation's first node's. -/
def selectSzProp (seq : List SgfNode) : Option (List String) :=
  match seq with
  | [] => none
  | root :: restNodes =>
    if (getProp root.properties "SZ").isSome then getProp root.properties "SZ"
    else
      match restNodes with
      | n2 :: _ =>
        if (getProp n2.properties "SZ").isSome then getProp n2.properties "SZ"
        else
          match root.variations with
          | (v0 :: _) :: _ => getProp v0.properties "SZ"
          | _ => none
      | [] =>
        match root.variations with
        | (v0 :: _) :: _ => getProp v0.properties "SZ"
        | _ => none

/-- The `SZ` value interpretation (`goLogic.ts` lines 507–516): an
unparsable or non-positive value falls back to the default size 19. -/
def determineBoardSize (seq : List SgfNode) : Nat :=
  match selectSzProp seq with
  | some vals =>
    match parseIntOpt (vals.headD "") with
    | some n => if 0 < n then n.toNat else DEFAULT_BOARD_SIZE
    | none => DEFAULT_BOARD_SIZE
  | none => DEFAULT_BOARD_SIZE

/-- `HANDICAP_POINTS_19/13/9` from `constants.ts`, as a lookup by board
size and handicap count; a missing entry is the empty list (the source's
`undefined` guarded by `?.`). -/
def handicapPoints (boardSize : Nat) (handicap : Int) : List Point :=
  if boardSize = 19 then
    match handicap with
    | 2 => [⟨3, 15⟩, ⟨15, 3⟩]
    | 3 => [⟨3, 15⟩, ⟨15, 3⟩, ⟨3, 3⟩]
    | 4 => [⟨3, 15⟩, ⟨15, 3⟩, ⟨3, 3⟩, ⟨15, 15⟩]
    | 5 => [⟨3, 15⟩, ⟨15, 3⟩, ⟨3, 3⟩, ⟨15, 15⟩, ⟨9, 9⟩]
    | 6 => [⟨3, 15⟩, ⟨15, 3⟩, ⟨3, 3⟩, ⟨15, 15⟩, ⟨3, 9⟩, ⟨15, 9⟩]
    | 7 => [⟨3, 15⟩, ⟨15, 3⟩, ⟨3, 3⟩, ⟨15, 15⟩, ⟨3, 9⟩, ⟨15, 9⟩, ⟨9, 9⟩]
    | 8 => [⟨3, 15⟩, ⟨15, 3⟩, ⟨3, 3⟩, ⟨15, 15⟩, ⟨3, 9⟩, ⟨15, 9⟩, ⟨9, 3⟩, ⟨9, 15⟩]
    | 9 => [⟨3, 15⟩, ⟨15, 3⟩, ⟨3, 3⟩, ⟨15, 15⟩, ⟨3, 9⟩, ⟨15, 9⟩, ⟨9, 3⟩, ⟨9, 15⟩, ⟨9, 9⟩]
    | _ => []
  else if boardSize = 13 then
    match handicap with
    | 2 => [⟨3, 9⟩, ⟨9, 3⟩]
    | 3 => [⟨3, 9⟩, ⟨9, 3⟩, ⟨3, 3⟩]
    | 4 => [⟨3, 9⟩, ⟨9, 3⟩, ⟨3, 3⟩, ⟨9, 9⟩]
    | _ => []
  else if boardSize = 9 then
    match handicap with
    | 2 => [⟨2, 6⟩, ⟨6, 2⟩]
    | 3 => [⟨2, 6⟩, ⟨6, 2⟩, ⟨2, 2⟩]
    | 4 => [⟨2, 6⟩, ⟨6, 2⟩, ⟨2, 2⟩, ⟨6, 6⟩]
    | _ => []
  else []

/-- The fully-resolved game tree node (`GameTreeNode` from `types.ts`),
minus `id`/`parentId`/`childrenIds` (parentage is the tree structure
below) and the `comment` mirror of `C`. -/
structure GameNodeData where
  sgfProps : List (String × List String)
  player : Option StoneColor
  coord : Option Point
  moveNumber : Nat
  boardState : Board
  stonesCapturedInThisStep : List Point
  totalCapturedByBlack : Nat
  totalCapturedByWhite : Nat
  koState : KoState
  isMainLineNext : Bool
deriving Repr

/-- A resolved game tree; `children` are ordered, index 0 being the
main-line continuation when `isMainLineNext` is set. -/
inductive GTree where
  | node (data : GameNodeData) (children : List GTree)
deriving Repr

def GTree.data : GTree → GameNodeData
  | .node d _ => d

def GTree.children : GTree → List GTree
  | .node _ cs => cs

/-- `ProcessingContext` from `goLogic.ts` (minus the node id). -/
structure ProcessingContext where
  parentBoard : Board
  parentTotalCapturedB : Nat
  parentTotalCapturedW : Nat
  parentKoState : KoState
  currentMoveNumber : Nat
  boardSize : Nat
  currentPlayerFromParent : StoneColor
deriving Repr

/-- One `AB`/`AW`/`AE` coordinate write of the resolution pass
(`goLogic.ts` lines 370–376): drop silently when outside the board. -/
def applySetupProp (boardSize : Nat) (color : StoneColor) (bd : Board) (v : String) :
    Board :=
  match sgfCoordToPoint v with
  | some p => if p.r < (boardSize : Int) ∧ p.c < (boardSize : Int) then bset bd p color else bd
  | none => bd

/-- The per-node body of `convertSgfSequenceToGameTree` (`goLogic.ts`
lines 356–467): setup writes, `PL` handling, the B/W move via
`applyMove` (an error leaves board, captures and ko untouched), move
numbering and the child context.  A missing move value (`B` with no
bracketed values, on which the source would throw) is read as the empty
string, i.e. a pass. -/
def processNode (props : List (String × List String)) (ctx : ProcessingContext) :
    GameNodeData × ProcessingContext :=
  let boardSize := ctx.boardSize
  let setupStep := fun (st : Board × KoState) (pc : String × StoneColor) =>
    match getProp props pc.1 with
    | some vals => (vals.foldl (applySetupProp boardSize pc.2) st.1, (⟨none, none⟩ : KoState))
    | none => st
  let st1 := [("AB", StoneColor.Black), ("AW", StoneColor.White),
    ("AE", StoneColor.Empty)].foldl setupStep (cloneBoard ctx.parentBoard, ctx.parentKoState)
  let plProp := getProp props "PL"
  let nextPlayer0 :=
    match plProp with
    | some vals =>
      match vals.head? with
      | some v =>
        if strUpper v = "W" then StoneColor.White
        else if strUpper v = "B" then StoneColor.Black
        else ctx.currentPlayerFromParent
      | none => ctx.currentPlayerFromParent
    | none => ctx.currentPlayerFromParent
  let ko1 := match plProp with
             | some _ => (⟨none, none⟩ : KoState)
             | none => st1.2
  let move : Option (StoneColor × String) :=
    match getProp props "B" with
    | some vals => some (.Black, vals.headD "")
    | none =>
      match getProp props "W" with
      | some vals => some (.White, vals.headD "")
      | none => none
  match move with
  | none =>
    let data : GameNodeData :=
      { sgfProps := props, player := none, coord := none,
        moveNumber := ctx.currentMoveNumber, boardState := cloneBoard st1.1,
        stonesCapturedInThisStep := [],
        totalCapturedByBlack := ctx.parentTotalCapturedB,
        totalCapturedByWhite := ctx.parentTotalCapturedW,
        koState := ko1, isMainLineNext := false }
    (data, { parentBoard := data.boardState,
             parentTotalCapturedB := data.totalCapturedByBlack,
             parentTotalCapturedW := data.totalCapturedByWhite,
             parentKoState := data.koState,
             currentMoveNumber := data.moveNumber,
             boardSize := boardSize,
             currentPlayerFromParent := nextPlayer0 })
  | some (pl, v) =>
    let coord := moveCoordOnBoard boardSize v
    let afterMove : Board × List Point × KoState :=
      match coord with
      | some cpt =>
        let result := applyMove st1.1 pl cpt ko1
        match result.error with
        | some _ => (st1.1, [], ko1)
        | none => (result.newBoard, result.stonesCapturedInThisMove, result.newKoState)
      | none => (st1.1, [], (⟨none, none⟩ : KoState))
    let capturedLen := afterMove.2.1.length
    let data : GameNodeData :=
      { sgfProps := props, player := some pl, coord := coord,
        moveNumber := ctx.currentMoveNumber + 1, boardState := cloneBoard afterMove.1,
        stonesCapturedInThisStep := afterMove.2.1,
        totalCapturedByBlack :=
          ctx.parentTotalCapturedB + (if pl = .Black then capturedLen else 0),
        totalCapturedByWhite :=
          ctx.parentTotalCapturedW + (if pl = .White then capturedLen else 0),
        koState := afterMove.2.2, isMainLineNext := false }
    (data, { parentBoard := data.boardState,
             parentTotalCapturedB := data.totalCapturedByBlack,
             parentTotalCapturedW := data.totalCapturedByWhite,
             parentKoState := data.koState,
             currentMoveNumber := data.moveNumber,
             boardSize := boardSize,
             currentPlayerFromParent :=
               if pl = .Black then StoneColor.White else StoneColor.Black })

/-- `convertSgfSequenceToGameTree` (`goLogic.ts` lines 343–483) in tree
form: the head node of the sequence becomes a tree node whose children
are the sequence continuation first (when present, with
`isMainLineNext := true`) followed by the variation branches. -/
def convertSeq : Nat → List SgfNode → ProcessingContext → Option GTree
  | 0, _, _ => none
  | _ + 1, [], _ => none
  | fuel + 1, sgfNode :: restSeq, ctx =>
    let pr := processNode sgfNode.properties ctx
    let varTrees := sgfNode.variations.filterMap (fun vs => convertSeq fuel vs pr.2)
    let contTree := convertSeq fuel restSeq pr.2
    let children := (match contTree with | some t => [t] | none => []) ++ varTrees
    some (GTree.node { pr.1 with isMainLineNext := contTree.isSome } children)

/-- `FullGameData` from `types.ts`, restricted to the fields that feed
board resolution.  The flat id→node map becomes the tree itself; komi (a
float), names, ranks, dates and result strings are opaque pass-through
metadata with no effect on any claim. -/
structure FullGame where
  boardSize : Nat
  handicap : Int
  rootProps : List (String × List String)
  tree : GTree
  initialPlayerForDisplay : StoneColor
deriving Repr

/-- The initial `ProcessingContext` that `parseSgf` builds for the root
sequence (`goLogic.ts` lines 545–601): handicap placement when `HA` is
positive and no `AB` is present, then the root `AB`/`AW`/`AE` setup
stones; the root's context has move number 0. -/
def initialContextOf (rootSgfProps : List (String × List String)) (boardSize : Nat) :
    ProcessingContext :=
  let handicap : Int :=
    match getProp rootSgfProps "HA" with
    | some vals => (parseIntOpt (vals.headD "")).getD 0
    | none => 0
  let playerToMove0 :=
    if ((getProp rootSgfProps "PL").bind (fun vs => vs.head?)).map strUpper
        = some "W" then
      StoneColor.White
    else StoneColor.Black
  let useHandicap := 0 < handicap ∧ (getProp rootSgfProps "AB").isNone
  let playerToMove := if useHandicap then StoneColor.White else playerToMove0
  let board1 :=
    if useHandicap then
      (handicapPoints boardSize handicap).foldl
        (fun bd p =>
          if p.r < (boardSize : Int) ∧ p.c < (boardSize : Int) then bset bd p .Black
          else bd)
        (createEmptyBoard boardSize)
    else createEmptyBoard boardSize
  let setupStep := fun (bd : Board) (pc : String × StoneColor) =>
    match getProp rootSgfProps pc.1 with
    | some vals => vals.foldl (applySetupProp boardSize pc.2) bd
    | none => bd
  let initialBoard := [("AB", StoneColor.Black), ("AW", StoneColor.White),
    ("AE", StoneColor.Empty)].foldl setupStep board1
  { parentBoard := initialBoard, parentTotalCapturedB := 0,
    parentTotalCapturedW := 0, parentKoState := ⟨none, none⟩,
    currentMoveNumber := 0, boardSize := boardSize,
    currentPlayerFromParent := playerToMove }

/-- The resolution tail of `parseSgf` (`goLogic.ts` lines 532–638) after
the board size has been validated: game info, handicap placement, root
setup stones, conversion of the sequence, and the initial display
player. -/
def parseSgfResolve (fuel : Nat) (rootSgfNode : SgfNode) (seq : List SgfNode)
    (boardSize : Nat) : Option FullGame :=
  let rootSgfProps := rootSgfNode.properties
  let handicap : Int :=
          match getProp rootSgfProps "HA" with
          | some vals => (parseIntOpt (vals.headD "")).getD 0
          | none => 0
  match convertSeq fuel seq (initialContextOf rootSgfProps boardSize) with
  | none => none
  | some tree =>
          let playerToMove := (initialContextOf rootSgfProps boardSize).currentPlayerFromParent
          let plFallback :=
            match (getProp rootSgfProps "PL").bind (fun vs => vs.head?) with
            | some v =>
              if strUpper v = "W" then StoneColor.White
              else if strUpper v = "B" then StoneColor.Black
              else playerToMove
            | none => playerToMove
          let display :=
            match tree.data.player with
            | some p => if p = .Black then StoneColor.White else StoneColor.Black
            | none =>
              match tree.children.head? with
              | some c =>
                match c.data.player with
                | some p => p
                | none => plFallback
              | none => plFallback
          some { boardSize := boardSize, handicap := handicap,
                 rootProps := rootSgfProps, tree := tree,
                 initialPlayerForDisplay := display }

/-- The null checks of `parseSgf` (`goLogic.ts` lines 486–529): an empty
sequence or a determined board size outside 2..52 loads as null
(`none`). -/
def parseSgfFromSeq : Nat → List SgfNode → Option FullGame
  | _, [] => none
  | fuel, rootSgfNode :: rest =>
    let boardSize0 := determineBoardSize (rootSgfNode :: rest)
    if 52 < boardSize0 then none
    else if boardSize0 < 2 ∧ boardSize0 ≠ 0 then none
    else parseSgfResolve fuel rootSgfNode (rootSgfNode :: rest)
      (if boardSize0 = 0 then DEFAULT_BOARD_SIZE else boardSize0)

/-- `parseSgf` (`goLogic.ts` lines 486–638).  Outer `none` = the raw
parse diverges (see `parseSgfIntoSequence`); `some none` = the source
returns `null`; `some (some g)` = a loaded game. -/
def parseSgf (sgfText : String) : Option (Option FullGame) :=
  match parseSgfIntoSequence sgfText with
  | none => none
  | some none => some none
  | some (some seq) => some (parseSgfFromSeq (parseSgfFuel (sgfText.length + 2)) seq)

/-- The move-numbering invariant over a resolved game tree: below a
parent whose move number is `parentMn`, a node with a player has move
number `parentMn + 1` and a node without one inherits `parentMn`, and
each child satisfies the invariant below this node's move number. -/
inductive MoveNumInv : Nat → GTree → Prop where
  | node (parentMn : Nat) (d : GameNodeData) (cs : List GTree)
      (hmn : d.moveNumber = if d.player.isSome then parentMn + 1 else parentMn)
      (hcs : ∀ c ∈ cs, MoveNumInv d.moveNumber c) :
      MoveNumInv parentMn (.node d cs)

/-- `GameTreeNode` from `types.ts`, restricted to the fields the play
path writes (drawing metadata and the comment are pass-through). -/
structure GameTreeNode where
  id : String
  parentId : Option String
  childrenIds : List String
  sgfProps : List (String × List String)
  player : Option StoneColor
  coord : Option Point
  moveNumber : Nat
  boardState : Board
  stonesCapturedInThisStep : List Point
  totalCapturedByBlack : Nat
  totalCapturedByWhite : Nat
  koState : KoState
  isMainLineNext : Bool
deriving Repr

/-- `pointToSgfCoord` from `goLogic.ts` lines 220–222: column letter
then row letter from code point 97 (`'a'`). -/
def pointToSgfCoord (point : Point) : String :=
  String.mk [Char.ofNat (97 + point.c).toNat, Char.ofNat (97 + point.r).toNat]

/-- The new `GameTreeNode` that `handleBoardClick` builds for a played
move (`App.tsx` lines 1330–1352): player and coordinate set, move number
one past the parent's, board, captures and ko from the `applyMove`
result. -/
def makePlayedNode (newNodeId currentNodeId : String)
    (playerMakingMove : StoneColor) (point : Point)
    (currentSgfNode : GameTreeNode) (moveResult : ApplyMoveResult) : GameTreeNode :=
  { id := newNodeId, parentId := some currentNodeId, childrenIds := [],
    sgfProps := [((if playerMakingMove = .Black then "B" else "W"),
                  [pointToSgfCoord point])],
    player := some playerMakingMove, coord := some point,
    moveNumber := currentSgfNode.moveNumber + 1,
    boardState := moveResult.newBoard,
    stonesCapturedInThisStep := moveResult.stonesCapturedInThisMove,
    totalCapturedByBlack := currentSgfNode.totalCapturedByBlack +
      (if playerMakingMove = .Black then moveResult.stonesCapturedInThisMove.length else 0),
    totalCapturedByWhite := currentSgfNode.totalCapturedByWhite +
      (if playerMakingMove = .White then moveResult.stonesCapturedInThisMove.length else 0),
    koState := moveResult.newKoState,
    isMainLineNext := false }

/-- The parent update of `handleBoardClick` (`App.tsx` lines 1354–1356):
the new child id goes first in `childrenIds` (any stale copy of the same
id filtered out) and `isMainLineNext` is set. -/
def appendChildAsMainLine (parentNode : GameTreeNode) (newNodeId : String) :
    GameTreeNode :=
  { parentNode with
    childrenIds := newNodeId :: parentNode.childrenIds.filter (fun i => i ≠ newNodeId),
    isMainLineNext := true }

/-- A junk `FullGame` standing in for TypeScript `undefined` when a
parse result is destructured. -/
def emptyFullGame : FullGame :=
  { boardSize := 0, handicap := 0, rootProps := [],
    tree := .node ⟨[], none, none, 0, [], [], 0, 0, ⟨none, none⟩, false⟩ [],
    initialPlayerForDisplay := .Black }

/-- The game loaded from a two-line SGF used as the concrete move-number
check: a 2×2 board with a single Black move. -/
def gameOfSzTwo : FullGame :=
  ((parseSgf "(;SZ[2];B[aa])").getD none).getD emptyFullGame

/-- Concrete parent node for the C9 check: one existing child `"n0a"`. -/
def parentNodeC9 : GameTreeNode :=
  { id := "n0", parentId := none, childrenIds := ["n0a"], sgfProps := [],
    player := none, coord := none, moveNumber := 0,
    boardState := createEmptyBoard 2, stonesCapturedInThisStep := [],
    totalCapturedByBlack := 0, totalCapturedByWhite := 0,
    koState := ⟨none, none⟩, isMainLineNext := false }

/-- A concrete successful `applyMove` result for the C9 check. -/
def moveResultC9 : ApplyMoveResult :=
  applyMove (createEmptyBoard 2) .Black ⟨0, 0⟩ ⟨none, none⟩

theorem cloneBoard_eq (b : Board) : cloneBoard b = b := by
  simp [cloneBoard]

theorem isInBounds_iff {r c : Int} {size : Nat} :
    isInBounds r c size = true ↔ 0 ≤ r ∧ r < (size : Int) ∧ 0 ≤ c ∧ c < (size : Int) := by
  simp [isInBounds, and_assoc]

theorem rowsEqual_iff : ∀ (r1 r2 : List StoneColor),
    (r1.length == r2.length && (List.zip r1 r2).all (fun s => s.1 == s.2)) = true ↔ r1 = r2 := by
  intro r1
  induction r1 with
  | nil => intro r2; cases r2 <;> simp
  | cons a t ih =>
    intro r2
    cases r2 with
    | nil => simp
    | cons b u =>
      simp only [List.length_cons, List.zip_cons_cons, List.all_cons, beq_iff_eq,
        Bool.and_eq_true, List.cons.injEq]
      constructor
      · rintro ⟨hlen, hab, hall⟩
        refine ⟨hab, ?_⟩
        refine (ih u).mp ?_
        simp only [beq_iff_eq, Bool.and_eq_true]
        exact ⟨by omega, hall⟩
      · rintro ⟨hab, rfl⟩
        refine ⟨rfl, hab, ?_⟩
        have := (ih t).mpr rfl
        simp only [beq_iff_eq, Bool.and_eq_true] at this
        exact this.2

theorem boardsAreEqual_iff {b1 b2 : Board} : boardsAreEqual b1 b2 = true ↔ b1 = b2 := by
  induction b1 generalizing b2 with
  | nil => cases b2 <;> simp [boardsAreEqual]
  | cons a t ih =>
    cases b2 with
    | nil => simp [boardsAreEqual]
    | cons b u =>
      simp only [boardsAreEqual, List.length_cons, List.zip_cons_cons, List.all_cons,
        beq_iff_eq, Bool.and_eq_true, List.cons.injEq]
      constructor
      · rintro ⟨hlen, hrow, hall⟩
        refine ⟨(rowsEqual_iff a b).mp (by simp only [beq_iff_eq, Bool.and_eq_true]; exact hrow), ?_⟩
        refine ih.mp ?_
        simp only [boardsAreEqual, beq_iff_eq, Bool.and_eq_true]
        exact ⟨by omega, hall⟩
      · rintro ⟨rfl, rfl⟩
        have hr := (rowsEqual_iff a a).mpr rfl
        simp only [beq_iff_eq, Bool.and_eq_true] at hr
        have h2 := (@ih t).mpr rfl
        simp only [boardsAreEqual, beq_iff_eq, Bool.and_eq_true] at h2
        exact ⟨rfl, ⟨rfl, hr.2⟩, h2.2⟩

theorem applyMove_unfold (board : Board) (player : StoneColor) (coord : Point)
    (ko : KoState) :
    applyMove board player coord ko =
      if occupiedOrOOB board coord then
        ⟨board, [], ko, some "Invalid move: Point is not empty or out of bounds."⟩
      else if koRejects board player coord ko then
        ⟨board, [], ko, some "Invalid move: Ko violation."⟩
      else if (getGroupAndLiberties (postCaptureState board player coord).1
            coord.r coord.c).liberties = [] ∧ (postCaptureState board player coord).2 = [] then
        ⟨board, [], ko, some "Invalid move: Suicide."⟩
      else
        ⟨(postCaptureState board player coord).1, (postCaptureState board player coord).2,
          deriveKoState board (postCaptureState board player coord).1
            (opponentColorOf player) coord (postCaptureState board player coord).2, none⟩ := by
  simp only [applyMove, postCaptureState, cloneBoard_eq]

/-- **C1.**  Whenever `applyMove` returns an error — occupied/out-of-bounds,
ko violation, or suicide — the returned board is the input board (hence
`boardsAreEqual` to it), the captured-stone list is empty, and the
returned ko state equals the input ko state: a rejected move never
mutates any state. -/
theorem applyMove_error_preserves_state (board : Board) (player : StoneColor)
    (coord : Point) (ko : KoState) (e : String)
    (herr : (applyMove board player coord ko).error = some e) :
    (applyMove board player coord ko).newBoard = board ∧
    boardsAreEqual (applyMove board player coord ko).newBoard board = true ∧
    (applyMove board player coord ko).stonesCapturedInThisMove = [] ∧
    (applyMove board player coord ko).newKoState = ko := by
  rw [applyMove_unfold] at herr ⊢
  split_ifs at herr ⊢ <;>
    simp_all [boardsAreEqual_iff]

/-- Witness for C1: on a 2×2 board with Black stones at (0,1) and (1,0),
White playing on the occupied point (0,1) is rejected and nothing changes. -/
theorem applyMove_error_preserves_state_witness :
    (applyMove [[.Empty, .Black], [.Black, .Empty]] .White ⟨0, 1⟩
        ⟨none, none⟩).newBoard = [[.Empty, .Black], [.Black, .Empty]] ∧
    boardsAreEqual (applyMove [[.Empty, .Black], [.Black, .Empty]] .White ⟨0, 1⟩
        ⟨none, none⟩).newBoard [[.Empty, .Black], [.Black, .Empty]] = true ∧
    (applyMove [[.Empty, .Black], [.Black, .Empty]] .White ⟨0, 1⟩
        ⟨none, none⟩).stonesCapturedInThisMove = [] ∧
    (applyMove [[.Empty, .Black], [.Black, .Empty]] .White ⟨0, 1⟩
        ⟨none, none⟩).newKoState = ⟨none, none⟩ :=
  applyMove_error_preserves_state [[.Empty, .Black], [.Black, .Empty]] .White ⟨0, 1⟩
    ⟨none, none⟩ "Invalid move: Point is not empty or out of bounds." rfl

/-- **C3.**  Provided the occupancy/bounds check and the ko check pass,
`applyMove` rejects with the suicide error exactly when, after the
opponent-capture loop has run, the just-played stone's own group has zero
liberties and the move captured no stones; in particular a placement that
captured at least one stone is never rejected as suicide. -/
theorem applyMove_suicide_iff (board : Board) (player : StoneColor) (coord : Point)
    (ko : KoState)
    (h1 : occupiedOrOOB board coord = false)
    (h2 : koRejects board player coord ko = false) :
    (((applyMove board player coord ko).error = some "Invalid move: Suicide.") ↔
      ((getGroupAndLiberties (postCaptureState board player coord).1
          coord.r coord.c).liberties = [] ∧ (postCaptureState board player coord).2 = [])) ∧
    ((postCaptureState board player coord).2 ≠ [] →
      (applyMove board player coord ko).error ≠ some "Invalid move: Suicide.") := by
  rw [applyMove_unfold, h1, h2]
  simp only [Bool.false_eq_true, if_false]
  split_ifs with h3
  · exact ⟨⟨fun _ => h3, fun _ => rfl⟩, fun hne _ => hne h3.2⟩
  · exact ⟨⟨fun hc => False.elim hc, fun hrhs => absurd hrhs h3⟩,
      fun _ hc => Option.noConfusion hc⟩

/-- Witness for C3: on a 2×2 board with Black at (0,1) and (1,0), White
playing (0,0) is a suicide — zero liberties, zero captures. -/
theorem applyMove_suicide_iff_witness :
    (((applyMove [[.Empty, .Black], [.Black, .Empty]] .White ⟨0, 0⟩
        ⟨none, none⟩).error = some "Invalid move: Suicide.") ↔
      ((getGroupAndLiberties (postCaptureState [[.Empty, .Black], [.Black, .Empty]]
          .White ⟨0, 0⟩).1 0 0).liberties = [] ∧
        (postCaptureState [[.Empty, .Black], [.Black, .Empty]] .White ⟨0, 0⟩).2 = [])) ∧
    ((postCaptureState [[.Empty, .Black], [.Black, .Empty]] .White ⟨0, 0⟩).2 ≠ [] →
      (applyMove [[.Empty, .Black], [.Black, .Empty]] .White ⟨0, 0⟩
        ⟨none, none⟩).error ≠ some "Invalid move: Suicide.") :=
  applyMove_suicide_iff [[.Empty, .Black], [.Black, .Empty]] .White ⟨0, 0⟩
    ⟨none, none⟩ rfl rfl

theorem applyMove_success_eq (board : Board) (player : StoneColor) (coord : Point)
    (ko : KoState)
    (hok : (applyMove board player coord ko).error = none) :
    applyMove board player coord ko =
      ⟨(postCaptureState board player coord).1, (postCaptureState board player coord).2,
        deriveKoState board (postCaptureState board player coord).1 (opponentColorOf player)
          coord (postCaptureState board player coord).2, none⟩ := by
  rw [applyMove_unfold] at hok ⊢
  split_ifs at hok ⊢
  rfl

theorem deriveKoState_spec (orig nb : Board) (opp : StoneColor) (coord : Point)
    (caps : List Point) :
    ((deriveKoState orig nb opp coord caps).koPoint ≠ none ↔
        ∃ p, KoTriggerCond orig nb opp coord caps p) ∧
    (∀ p, KoTriggerCond orig nb opp coord caps p →
        deriveKoState orig nb opp coord caps = ⟨some p, some orig⟩) ∧
    ((¬ ∃ p, KoTriggerCond orig nb opp coord caps p) →
        deriveKoState orig nb opp coord caps = ⟨none, none⟩) := by
  match caps with
  | [] =>
    refine ⟨⟨fun h => absurd rfl h, ?_⟩, ?_, fun _ => rfl⟩
    · rintro ⟨p, hp, -⟩; cases hp
    · rintro p ⟨hp, -⟩; cases hp
  | [q] =>
    simp only [deriveKoState, cloneBoard_eq]
    split_ifs with hlib heq
    · refine ⟨⟨fun _ => ⟨q, rfl, hlib, heq⟩, fun _ => by simp⟩, ?_, ?_⟩
      · rintro p ⟨hp, -, -⟩
        obtain rfl : q = p := by cases hp; rfl
        rfl
      · intro hno; exact absurd ⟨q, rfl, hlib, heq⟩ hno
    · refine ⟨⟨fun h => absurd rfl h, ?_⟩, ?_, fun _ => rfl⟩
      · rintro ⟨p, hp, -, hq⟩
        obtain rfl : q = p := by cases hp; rfl
        exact absurd hq heq
      · rintro p ⟨hp, -, hq⟩
        obtain rfl : q = p := by cases hp; rfl
        exact absurd hq heq
    · refine ⟨⟨fun h => absurd rfl h, ?_⟩, ?_, fun _ => rfl⟩
      · rintro ⟨p, hp, hl, -⟩
        obtain rfl : q = p := by cases hp; rfl
        exact absurd hl hlib
      · rintro p ⟨hp, hl, -⟩
        obtain rfl : q = p := by cases hp; rfl
        exact absurd hl hlib
  | q :: r :: rest =>
    refine ⟨⟨fun h => absurd rfl h, ?_⟩, ?_, fun _ => rfl⟩
    · rintro ⟨p, hp, -⟩; cases hp
    · rintro p ⟨hp, -⟩; cases hp

/-- **C4.**  For every successful `applyMove`, the returned ko state has a
non-null `koPoint` exactly when exactly one stone `p` was captured,
placing an opponent stone back on `p` would leave the just-played stone's
group with zero liberties, and removing that group reproduces the
pre-move board; in that case the ko state is `⟨some p, some board⟩`
(captured point plus pre-move snapshot) and in every other case —
including every multi-stone capture — it is empty. -/
theorem applyMove_ko_derivation (board : Board) (player : StoneColor) (coord : Point)
    (ko : KoState)
    (hok : (applyMove board player coord ko).error = none) :
    ((applyMove board player coord ko).newKoState.koPoint ≠ none ↔
        ∃ p, KoTriggerCond board (applyMove board player coord ko).newBoard
          (opponentColorOf player) coord
          (applyMove board player coord ko).stonesCapturedInThisMove p) ∧
    (∀ p, KoTriggerCond board (applyMove board player coord ko).newBoard
          (opponentColorOf player) coord
          (applyMove board player coord ko).stonesCapturedInThisMove p →
        (applyMove board player coord ko).newKoState = ⟨some p, some board⟩) ∧
    ((¬ ∃ p, KoTriggerCond board (applyMove board player coord ko).newBoard
          (opponentColorOf player) coord
          (applyMove board player coord ko).stonesCapturedInThisMove p) →
        (applyMove board player coord ko).newKoState = ⟨none, none⟩) := by
  rw [applyMove_success_eq board player coord ko hok]
  exact deriveKoState_spec board (postCaptureState board player coord).1
    (opponentColorOf player) coord (postCaptureState board player coord).2

/-- Witness for C4: the textbook single-stone ko.  On the 3×3 board
`[[E,W,B],[W,B,E],[E,E,E]]`, Black plays (0,0) capturing the White stone
at (0,1); the derived ko state is exactly `⟨some (0,1), snapshot⟩`. -/
theorem applyMove_ko_derivation_witness :
    ((applyMove [[.Empty, .White, .Black], [.White, .Black, .Empty],
        [.Empty, .Empty, .Empty]] .Black ⟨0, 0⟩ ⟨none, none⟩).newKoState.koPoint ≠ none ↔
      ∃ p, KoTriggerCond [[.Empty, .White, .Black], [.White, .Black, .Empty],
          [.Empty, .Empty, .Empty]]
        (applyMove [[.Empty, .White, .Black], [.White, .Black, .Empty],
          [.Empty, .Empty, .Empty]] .Black ⟨0, 0⟩ ⟨none, none⟩).newBoard
        (opponentColorOf .Black) ⟨0, 0⟩
        (applyMove [[.Empty, .White, .Black], [.White, .Black, .Empty],
          [.Empty, .Empty, .Empty]] .Black ⟨0, 0⟩ ⟨none, none⟩).stonesCapturedInThisMove p) ∧
    (∀ p, KoTriggerCond [[.Empty, .White, .Black], [.White, .Black, .Empty],
          [.Empty, .Empty, .Empty]]
        (applyMove [[.Empty, .White, .Black], [.White, .Black, .Empty],
          [.Empty, .Empty, .Empty]] .Black ⟨0, 0⟩ ⟨none, none⟩).newBoard
        (opponentColorOf .Black) ⟨0, 0⟩
        (applyMove [[.Empty, .White, .Black], [.White, .Black, .Empty],
          [.Empty, .Empty, .Empty]] .Black ⟨0, 0⟩ ⟨none, none⟩).stonesCapturedInThisMove p →
      (applyMove [[.Empty, .White, .Black], [.White, .Black, .Empty],
        [.Empty, .Empty, .Empty]] .Black ⟨0, 0⟩ ⟨none, none⟩).newKoState =
        ⟨some p, some [[.Empty, .White, .Black], [.White, .Black, .Empty],
          [.Empty, .Empty, .Empty]]⟩) ∧
    ((¬ ∃ p, KoTriggerCond [[.Empty, .White, .Black], [.White, .Black, .Empty],
          [.Empty, .Empty, .Empty]]
        (applyMove [[.Empty, .White, .Black], [.White, .Black, .Empty],
          [.Empty, .Empty, .Empty]] .Black ⟨0, 0⟩ ⟨none, none⟩).newBoard
        (opponentColorOf .Black) ⟨0, 0⟩
        (applyMove [[.Empty, .White, .Black], [.White, .Black, .Empty],
          [.Empty, .Empty, .Empty]] .Black ⟨0, 0⟩ ⟨none, none⟩).stonesCapturedInThisMove p) →
      (applyMove [[.Empty, .White, .Black], [.White, .Black, .Empty],
        [.Empty, .Empty, .Empty]] .Black ⟨0, 0⟩ ⟨none, none⟩).newKoState = ⟨none, none⟩) :=
  applyMove_ko_derivation [[.Empty, .White, .Black], [.White, .Black, .Empty],
    [.Empty, .Empty, .Empty]] .Black ⟨0, 0⟩ ⟨none, none⟩ rfl

/-!
## Characterization of the flood fill

`getGroupAndLiberties` is proved to compute exactly the connected
same-color component of its start point and the set of empty points
adjacent to that component.  This is the backbone of the capture
correctness proof.
-/

theorem point_eq {r c r' c' : Int} (hr : r = r') (hc : c = c') :
    (⟨r, c⟩ : Point) = ⟨r', c'⟩ := by rw [hr, hc]

theorem neighborsOf_symm {p q : Point} (h : q ∈ neighborsOf p) : p ∈ neighborsOf q := by
  simp only [neighborsOf, List.mem_cons, List.not_mem_nil, or_false] at h ⊢
  cases p with
  | mk r c =>
    rcases h with h | h | h | h <;> subst h <;> simp [Point.mk.injEq]

theorem reaches_props {b : Board} {color : StoneColor} {size : Nat} {s p : Point}
    (hs : isInBounds s.r s.c size = true ∧ bget b s = color)
    (h : Reaches b color size s p) :
    isInBounds p.r p.c size = true ∧ bget b p = color := by
  induction h with
  | refl => exact hs
  | tail _ hstep ih => exact ⟨hstep.2.1, hstep.2.2⟩

theorem reaches_symm {b : Board} {color : StoneColor} {size : Nat} {s p : Point}
    (hs : isInBounds s.r s.c size = true ∧ bget b s = color)
    (h : Reaches b color size s p) : Reaches b color size p s := by
  induction h with
  | refl => exact Relation.ReflTransGen.refl
  | tail hsq hstep ih =>
    rename_i q r
    have hq := reaches_props hs hsq
    exact Relation.ReflTransGen.head ⟨neighborsOf_symm hstep.1, hq.1, hq.2⟩ ih

/-- Two points of the same component have the same component. -/
theorem reaches_congr {b : Board} {color : StoneColor} {size : Nat} {s m : Point}
    (hs : isInBounds s.r s.c size = true ∧ bget b s = color)
    (hm : Reaches b color size s m) (x : Point) :
    Reaches b color size s x ↔ Reaches b color size m x := by
  constructor
  · intro hx
    exact Relation.ReflTransGen.trans (reaches_symm hs hm) hx
  · intro hx
    exact Relation.ReflTransGen.trans hm hx

theorem contains_iff_mem {l : List Point} {a : Point} : l.contains a = true ↔ a ∈ l := by
  simp

theorem glScanStep_inv (b : Board) (color : StoneColor) (size : Nat) (s curr : Point)
    (hcolor : color ≠ .Empty)
    (oldGroup done : List Point) (q vis lb : List Point) (n : Point)
    (hn : n ∈ neighborsOf curr)
    (hinv : ScanInv b color size s curr oldGroup done q vis lb) :
    ScanInv b color size s curr oldGroup (done ++ [n])
      (glScanStep b color size (q, vis, lb) n).1
      (glScanStep b color size (q, vis, lb) n).2.1
      (glScanStep b color size (q, vis, lb) n).2.2 := by
  obtain ⟨nodup_gq, vis_iff, vis_ok, s_vis, lb_nodup, lb_ok, lb_comp_old, fr_old,
    done_lb, done_fr⟩ := hinv
  have hcurr_mem : curr ∈ oldGroup ++ [curr] := by simp
  have hcurr_vis : curr ∈ vis := (vis_iff curr).mpr (Or.inl hcurr_mem)
  have hcurr_ok := vis_ok curr hcurr_vis
  unfold glScanStep
  by_cases hb : isInBounds n.r n.c size = true
  · rw [if_pos hb]
    by_cases hemp : bget b n = .Empty
    · rw [if_pos hemp]
      by_cases hmem : lb.contains n = true
      · rw [if_pos hmem]
        refine ⟨nodup_gq, vis_iff, vis_ok, s_vis, lb_nodup, lb_ok, lb_comp_old, fr_old, ?_, ?_⟩
        · intro m hm hmb hmemp
          rcases List.mem_append.mp hm with h | h
          · exact done_lb m h hmb hmemp
          · obtain rfl : m = n := by simpa using h
            exact contains_iff_mem.mp hmem
        · intro m hm hmb hmc
          rcases List.mem_append.mp hm with h | h
          · exact done_fr m h hmb hmc
          · obtain rfl : m = n := by simpa using h
            rw [hmc] at hemp
            exact absurd hemp hcolor
      · rw [if_neg hmem]
        have hnotin : n ∉ lb := fun hc => hmem (contains_iff_mem.mpr hc)
        refine ⟨nodup_gq, vis_iff, vis_ok, s_vis, ?_, ?_, ?_, fr_old, ?_, ?_⟩
        · exact List.Nodup.append lb_nodup (by simp) (by simpa using hnotin)
        · intro l hl
          rcases List.mem_append.mp hl with h | h
          · exact lb_ok l h
          · obtain rfl : l = n := by simpa using h
            exact ⟨hb, hemp, curr, hcurr_mem, hn⟩
        · intro g hg m hm hmb hme
          exact List.mem_append_left _ (lb_comp_old g hg m hm hmb hme)
        · intro m hm hmb hmemp
          rcases List.mem_append.mp hm with h | h
          · exact List.mem_append_left _ (done_lb m h hmb hmemp)
          · obtain rfl : m = n := by simpa using h
            simp
        · intro m hm hmb hmc
          rcases List.mem_append.mp hm with h | h
          · exact done_fr m h hmb hmc
          · obtain rfl : m = n := by simpa using h
            rw [hmc] at hemp
            exact absurd hemp hcolor
    · rw [if_neg hemp]
      by_cases hcol : bget b n = color ∧ ¬ vis.contains n = true
      · rw [if_pos hcol]
        have hnvis : n ∉ vis := fun hc => hcol.2 (contains_iff_mem.mpr hc)
        have hngq : n ∉ (oldGroup ++ [curr]) ++ q := by
          intro hc
          rcases List.mem_append.mp hc with h | h
          · exact hnvis ((vis_iff n).mpr (Or.inl h))
          · exact hnvis ((vis_iff n).mpr (Or.inr h))
        have hreach : Reaches b color size s n :=
          Relation.ReflTransGen.tail hcurr_ok.2.2 ⟨hn, hb, hcol.1⟩
        refine ⟨?_, ?_, ?_, ?_, lb_nodup, lb_ok, lb_comp_old, ?_, ?_, ?_⟩
        · have heq : (oldGroup ++ [curr]) ++ (q ++ [n]) = (((oldGroup ++ [curr]) ++ q) ++ [n]) := by
            simp [List.append_assoc]
          rw [heq]
          exact List.Nodup.append nodup_gq (by simp) (by simpa using hngq)
        · intro p
          constructor
          · intro hp
            rcases List.mem_append.mp hp with h | h
            · rcases (vis_iff p).mp h with h2 | h2
              · exact Or.inl h2
              · exact Or.inr (List.mem_append_left _ h2)
            · obtain rfl : p = n := by simpa using h
              exact Or.inr (by simp)
          · intro hp
            rcases hp with h | h
            · exact List.mem_append_left _ ((vis_iff p).mpr (Or.inl h))
            · rcases List.mem_append.mp h with h2 | h2
              · exact List.mem_append_left _ ((vis_iff p).mpr (Or.inr h2))
              · obtain rfl : p = n := by simpa using h2
                simp
        · intro p hp
          rcases List.mem_append.mp hp with h | h
          · exact vis_ok p h
          · obtain rfl : p = n := by simpa using h
            exact ⟨hb, hcol.1, hreach⟩
        · exact List.mem_append_left _ s_vis
        · intro g hg m hm hmb hmc
          exact List.mem_append_left _ (fr_old g hg m hm hmb hmc)
        · intro m hm hmb hmemp
          rcases List.mem_append.mp hm with h | h
          · exact done_lb m h hmb hmemp
          · obtain rfl : m = n := by simpa using h
            exact absurd hmemp hemp
        · intro m hm hmb hmc
          rcases List.mem_append.mp hm with h | h
          · exact List.mem_append_left _ (done_fr m h hmb hmc)
          · obtain rfl : m = n := by simpa using h
            simp
      · rw [if_neg hcol]
        refine ⟨nodup_gq, vis_iff, vis_ok, s_vis, lb_nodup, lb_ok, lb_comp_old, fr_old, ?_, ?_⟩
        · intro m hm hmb hmemp
          rcases List.mem_append.mp hm with h | h
          · exact done_lb m h hmb hmemp
          · obtain rfl : m = n := by simpa using h
            exact absurd hmemp hemp
        · intro m hm hmb hmc
          rcases List.mem_append.mp hm with h | h
          · exact done_fr m h hmb hmc
          · obtain rfl : m = n := by simpa using h
            have hnn : ¬ ¬ vis.contains m = true := fun hnc => hcol ⟨hmc, hnc⟩
            exact contains_iff_mem.mp (not_not.mp hnn)
  · rw [if_neg (by simpa using hb)]
    refine ⟨nodup_gq, vis_iff, vis_ok, s_vis, lb_nodup, lb_ok, lb_comp_old, fr_old, ?_, ?_⟩
    · intro m hm hmb hx
      rcases List.mem_append.mp hm with h | h
      · exact done_lb m h hmb hx
      · obtain rfl : m = n := by simpa using h
        exact absurd hmb hb
    · intro m hm hmb hx
      rcases List.mem_append.mp hm with h | h
      · exact done_fr m h hmb hx
      · obtain rfl : m = n := by simpa using h
        exact absurd hmb hb

theorem glScan_fold_inv (b : Board) (color : StoneColor) (size : Nat) (s curr : Point)
    (hcolor : color ≠ .Empty) (oldGroup : List Point) :
    ∀ (ns done : List Point) (q vis lb : List Point),
      (∀ n ∈ ns, n ∈ neighborsOf curr) →
      ScanInv b color size s curr oldGroup done q vis lb →
      ScanInv b color size s curr oldGroup (done ++ ns)
        (ns.foldl (glScanStep b color size) (q, vis, lb)).1
        (ns.foldl (glScanStep b color size) (q, vis, lb)).2.1
        (ns.foldl (glScanStep b color size) (q, vis, lb)).2.2 := by
  intro ns
  induction ns with
  | nil =>
    intro done q vis lb _ hinv
    simpa using hinv
  | cons n ns ih =>
    intro done q vis lb hns hinv
    have hstep := glScanStep_inv b color size s curr hcolor oldGroup done q vis lb n
      (hns n (by simp)) hinv
    have hres := ih (done ++ [n])
      (glScanStep b color size (q, vis, lb) n).1
      (glScanStep b color size (q, vis, lb) n).2.1
      (glScanStep b color size (q, vis, lb) n).2.2
      (fun m hm => hns m (by simp [hm])) hstep
    have heq : done ++ [n] ++ ns = done ++ n :: ns := by simp
    rw [heq] at hres
    simpa using hres

theorem nodup_inbounds_length_le (l : List Point) (size : Nat)
    (hn : l.Nodup) (hb : ∀ p ∈ l, isInBounds p.r p.c size = true) :
    l.length ≤ size * size := by
  classical
  set f : Point → Nat := fun p => p.r.toNat * size + p.c.toNat with hf
  have hbound : ∀ p ∈ l, p.r.toNat < size ∧ p.c.toNat < size ∧ 0 ≤ p.r ∧ 0 ≤ p.c := by
    intro p hp
    have := isInBounds_iff.mp (hb p hp)
    refine ⟨?_, ?_, this.1, this.2.2.1⟩ <;> omega
  have hinj : ∀ p ∈ l, ∀ q ∈ l, f p = f q → p = q := by
    intro p hp q hq hfe
    obtain ⟨hp1, hp2, hp3, hp4⟩ := hbound p hp
    obtain ⟨hq1, hq2, hq3, hq4⟩ := hbound q hq
    simp only [hf] at hfe
    have hszpos : 0 < size := lt_of_le_of_lt (Nat.zero_le _) hp2
    have hr : p.r.toNat = q.r.toNat ∧ p.c.toNat = q.c.toNat := by
      have h1 : (p.r.toNat * size + p.c.toNat) % size = p.c.toNat := by
        rw [Nat.add_comm, Nat.add_mul_mod_self_right]; exact Nat.mod_eq_of_lt hp2
      have h2 : (q.r.toNat * size + q.c.toNat) % size = q.c.toNat := by
        rw [Nat.add_comm, Nat.add_mul_mod_self_right]; exact Nat.mod_eq_of_lt hq2
      have hc : p.c.toNat = q.c.toNat := by rw [← h1, ← h2, hfe]
      have hrmul : p.r.toNat * size = q.r.toNat * size := by omega
      exact ⟨Nat.eq_of_mul_eq_mul_right hszpos hrmul, hc⟩
    cases p with
    | mk pr pc =>
      cases q with
      | mk qr qc =>
        simp only [Point.mk.injEq]
        simp only at hp3 hp4 hq3 hq4 hr
        omega
  have hltall : ∀ x ∈ l.map f, x < size * size := by
    intro x hx
    obtain ⟨p, hp, rfl⟩ := List.mem_map.mp hx
    obtain ⟨hp1, hp2, -, -⟩ := hbound p hp
    calc p.r.toNat * size + p.c.toNat < p.r.toNat * size + size := by omega
      _ = (p.r.toNat + 1) * size := by ring
      _ ≤ size * size := Nat.mul_le_mul_right _ (by omega)
  have hmnd : (l.map f).Nodup := List.Nodup.map_on hinj hn
  have hsub : (l.map f).toFinset ⊆ Finset.range (size * size) := by
    intro x hx
    simp only [List.mem_toFinset] at hx
    exact Finset.mem_range.mpr (hltall x hx)
  calc l.length = (l.map f).length := (List.length_map l f).symm
    _ = (l.map f).toFinset.card := (List.toFinset_card_of_nodup hmnd).symm
    _ ≤ (Finset.range (size * size)).card := Finset.card_le_card hsub
    _ = size * size := Finset.card_range _

theorem glInv_to_scanInv {b : Board} {color : StoneColor} {size : Nat} {s curr : Point}
    {rest visited group libs : List Point}
    (hinv : GlInv b color size s (curr :: rest) visited group libs) :
    ScanInv b color size s curr group [] rest visited libs := by
  obtain ⟨nodup_gq, vis_iff, vis_ok, s_vis, lb_nodup, lb_ok, lb_comp, frontier⟩ := hinv
  refine ⟨?_, ?_, vis_ok, s_vis, lb_nodup, ?_, lb_comp, ?_, by simp, by simp⟩
  · have heq : (group ++ [curr]) ++ rest = group ++ curr :: rest := by simp
    rw [heq]; exact nodup_gq
  · intro p
    rw [vis_iff p]
    simp only [List.mem_append, List.mem_cons, List.mem_singleton]
    tauto
  · intro l hl
    obtain ⟨h1, h2, g, hg, h3⟩ := lb_ok l hl
    exact ⟨h1, h2, g, List.mem_append_left _ hg, h3⟩
  · intro g hg m hm hmb hmc
    exact frontier g hg m hm hmb hmc

theorem scanInv_to_glInv {b : Board} {color : StoneColor} {size : Nat} {s curr : Point}
    {group q vis lb : List Point}
    (hinv : ScanInv b color size s curr group (neighborsOf curr) q vis lb) :
    GlInv b color size s q vis (group ++ [curr]) lb := by
  obtain ⟨nodup_gq, vis_iff, vis_ok, s_vis, lb_nodup, lb_ok, lb_comp_old, fr_old,
    done_lb, done_fr⟩ := hinv
  refine ⟨nodup_gq, vis_iff, vis_ok, s_vis, lb_nodup, lb_ok, ?_, ?_⟩
  · intro g hg m hm hmb hme
    rcases List.mem_append.mp hg with h | h
    · exact lb_comp_old g h m hm hmb hme
    · obtain rfl : g = curr := by simpa using h
      exact done_lb m hm hmb hme
  · intro g hg m hm hmb hmc
    rcases List.mem_append.mp hg with h | h
    · exact fr_old g h m hm hmb hmc
    · obtain rfl : g = curr := by simpa using h
      exact done_fr m hm hmb hmc

theorem glLoop_inv (b : Board) (color : StoneColor) (size : Nat) (s : Point)
    (hcolor : color ≠ .Empty) :
    ∀ (fuel : Nat) (queue visited group libs : List Point),
      GlInv b color size s queue visited group libs →
      size * size ≤ fuel + group.length →
      ∃ visited',
        GlInv b color size s [] visited'
          (glLoop b color size fuel queue visited group libs).group
          (glLoop b color size fuel queue visited group libs).liberties := by
  intro fuel
  induction fuel with
  | zero =>
    intro queue visited group libs hinv hfuel
    match queue with
    | [] => exact ⟨visited, by simpa [glLoop] using hinv⟩
    | curr :: rest =>
      exfalso
      have hnodup := hinv.nodup_gq
      have hble : (group ++ curr :: rest).length ≤ size * size := by
        refine nodup_inbounds_length_le _ _ hnodup ?_
        intro p hp
        rcases List.mem_append.mp hp with h | h
        · exact (hinv.vis_ok p ((hinv.vis_iff p).mpr (Or.inl h))).1
        · exact (hinv.vis_ok p ((hinv.vis_iff p).mpr (Or.inr h))).1
      simp only [List.length_append, List.length_cons] at hble
      omega
  | succ fuel ih =>
    intro queue visited group libs hinv hfuel
    match queue with
    | [] => exact ⟨visited, by simpa [glLoop] using hinv⟩
    | curr :: rest =>
      have hscan := glScan_fold_inv b color size s curr hcolor group
        (neighborsOf curr) [] rest visited libs (fun n hn => hn)
        (glInv_to_scanInv hinv)
      simp only [List.nil_append] at hscan
      have hnext := scanInv_to_glInv hscan
      have hfuel' : size * size ≤ fuel + (group ++ [curr]).length := by
        simp only [List.length_append, List.length_singleton]
        omega
      have := ih _ _ _ _ hnext hfuel'
      simpa [glLoop] using this

/-- `getGroupAndLiberties` computes exactly the connected same-color
component of its (non-empty, in-bounds) start point, without duplicates,
and exactly the empty points adjacent to that component, each once. -/
theorem getGroupAndLiberties_spec (b : Board) (s : Point)
    (hin : isInBounds s.r s.c b.length = true)
    (hcol : bget b s ≠ .Empty) :
    (getGroupAndLiberties b s.r s.c).group.Nodup ∧
    (∀ p, p ∈ (getGroupAndLiberties b s.r s.c).group ↔ Reaches b (bget b s) b.length s p) ∧
    (getGroupAndLiberties b s.r s.c).liberties.Nodup ∧
    (∀ l, l ∈ (getGroupAndLiberties b s.r s.c).liberties ↔
      isInBounds l.r l.c b.length = true ∧ bget b l = .Empty ∧
      ∃ p, Reaches b (bget b s) b.length s p ∧ l ∈ neighborsOf p) := by
  have hpt : (⟨s.r, s.c⟩ : Point) = s := rfl
  have hgl : getGroupAndLiberties b s.r s.c =
      glLoop b (bget b s) b.length (b.length * b.length + 1) [s] [s] [] [] := by
    unfold getGroupAndLiberties
    rw [hpt, if_neg hcol]
  have hinit : GlInv b (bget b s) b.length s [s] [s] [] [] := by
    refine ⟨by simp, by simp, ?_, by simp, by simp, by simp, by simp, by simp⟩
    intro p hp
    obtain rfl : p = s := by simpa using hp
    exact ⟨hin, rfl, Relation.ReflTransGen.refl⟩
  obtain ⟨vis', hfin⟩ := glLoop_inv b (bget b s) b.length s hcol
    (b.length * b.length + 1) [s] [s] [] [] hinit (by simp)
  rw [← hgl] at hfin
  have hsg : s ∈ (getGroupAndLiberties b s.r s.c).group := by
    rcases (hfin.vis_iff s).mp hfin.s_vis with h | h
    · exact h
    · simp at h
  have hsound : ∀ p, p ∈ (getGroupAndLiberties b s.r s.c).group →
      Reaches b (bget b s) b.length s p := by
    intro p hp
    exact (hfin.vis_ok p ((hfin.vis_iff p).mpr (Or.inl hp))).2.2
  have hcomplete : ∀ p, Reaches b (bget b s) b.length s p →
      p ∈ (getGroupAndLiberties b s.r s.c).group := by
    intro p hr
    induction hr with
    | refl => exact hsg
    | tail hqs hstep ih =>
      rename_i q p'
      have hpv := hfin.frontier q ih p' hstep.1 hstep.2.1 hstep.2.2
      rcases (hfin.vis_iff p').mp hpv with h | h
      · exact h
      · simp at h
  refine ⟨by simpa using hfin.nodup_gq, fun p => ⟨hsound p, hcomplete p⟩,
    hfin.lb_nodup, fun l => ⟨?_, ?_⟩⟩
  · intro hl
    obtain ⟨h1, h2, g, hg, h3⟩ := hfin.lb_ok l hl
    exact ⟨h1, h2, g, hsound g hg, h3⟩
  · rintro ⟨h1, h2, p, hp, h3⟩
    exact hfin.lb_comp p (hcomplete p hp) l h3 h1 h2

/-!
## Capture correctness

The capture loop of `applyMove` removes every adjacent opponent group that
has no liberties on the board-with-stone-placed, in its entirety, and
records each removed point exactly once.  The proof tracks the loop with
an invariant over the set of already-removed components, using the
flood-fill characterization above.
-/

theorem bset_length (b : Board) (p : Point) (s : StoneColor) :
    (bset b p s).length = b.length := by
  unfold bset
  split_ifs <;> simp

theorem getD_set_lt {α : Type _} (l : List α) (i : Nat) (a d : α) (h : i < l.length) :
    (l.set i a).getD i d = a := by
  simp [List.getD_eq_getElem?_getD, List.getElem?_set_eq_of_lt a h]

theorem getD_set_ne {α : Type _} (l : List α) {i j : Nat} (hne : i ≠ j) (a d : α) :
    (l.set i a).getD j d = l.getD j d := by
  simp [List.getD_eq_getElem?_getD, List.getElem?_set_ne hne]

theorem getD_row_eq (b : Board) (i : Nat) (h : i < b.length) :
    b.getD i [] = b[i] := by
  simp [List.getD_eq_getElem?_getD, List.getElem?_eq_getElem h]

theorem bset_isSquare {b : Board} (hsq : IsSquare b) (p : Point) (s : StoneColor) :
    IsSquare (bset b p s) := by
  intro row hrow
  rw [bset_length]
  unfold bset at hrow
  split_ifs at hrow with h
  · by_cases hrlt : p.r.toNat < b.length
    · rcases List.mem_or_eq_of_mem_set hrow with h2 | h2
      · exact hsq row h2
      · subst h2
        rw [List.length_set, getD_row_eq b _ hrlt]
        exact hsq _ (List.getElem_mem hrlt)
    · rw [List.set_eq_of_length_le (by omega)] at hrow
      exact hsq row hrow
  · exact hsq row hrow

theorem bget_bset_self {b : Board} (hsq : IsSquare b) {p : Point}
    (hin : isInBounds p.r p.c b.length = true) (s : StoneColor) :
    bget (bset b p s) p = s := by
  obtain ⟨h1, h2, h3, h4⟩ := isInBounds_iff.mp hin
  have hrlt : p.r.toNat < b.length := by omega
  have hrowlen : (b.getD p.r.toNat []).length = b.length := by
    rw [getD_row_eq b _ hrlt]
    exact hsq _ (List.getElem_mem hrlt)
  have hclt : p.c.toNat < (b.getD p.r.toNat []).length := by omega
  unfold bget bset
  rw [if_pos ⟨h1, h3⟩, if_pos ⟨h1, h3⟩]
  rw [getD_set_lt _ _ _ _ hrlt, getD_set_lt _ _ _ _ hclt]

theorem bget_bset_ne {b : Board} {p q : Point} (hne : q ≠ p) (s : StoneColor) :
    bget (bset b p s) q = bget b q := by
  unfold bget bset
  by_cases hp : 0 ≤ p.r ∧ 0 ≤ p.c
  · rw [if_pos hp]
    by_cases hq : 0 ≤ q.r ∧ 0 ≤ q.c
    · rw [if_pos hq, if_pos hq]
      by_cases hrow : p.r.toNat = q.r.toNat
      · have hcne : p.c.toNat ≠ q.c.toNat := by
          intro hc
          apply hne
          cases p; cases q
          simp only [Point.mk.injEq]
          simp only at hrow hc
          obtain ⟨hp1, hp2⟩ := hp
          obtain ⟨hq1, hq2⟩ := hq
          simp only at hp1 hp2 hq1 hq2
          omega
        by_cases hrlt : p.r.toNat < b.length
        · rw [← hrow, getD_set_lt _ _ _ _ hrlt, getD_set_ne _ hcne]
        · rw [List.set_eq_of_length_le (by omega)]
      · rw [getD_set_ne _ hrow]
    · rw [if_neg hq, if_neg hq]
  · rw [if_neg hp]

/-- Locality: emptying a set `R` of cells disjoint from the component of
`s` leaves that component unchanged. -/
theorem reaches_congr_of_removed {b b' : Board} {color : StoneColor} {size : Nat}
    {R : Point → Prop} {s : Point}
    (hcolor : color ≠ .Empty)
    (hagree : ∀ p, ¬ R p → bget b' p = bget b p)
    (hemptied : ∀ p, R p → bget b' p = .Empty)
    (hdisj : ∀ p, R p → ¬ Reaches b color size s p) :
    ∀ p, Reaches b' color size s p ↔ Reaches b color size s p := by
  intro p
  constructor
  · intro h
    induction h with
    | refl => exact Relation.ReflTransGen.refl
    | tail hsq hstep ih =>
      rename_i q p'
      have hnR : ¬ R p' := by
        intro hR
        exact hcolor ((hemptied p' hR).symm.trans hstep.2.2).symm
      exact Relation.ReflTransGen.tail ih ⟨hstep.1, hstep.2.1, (hagree p' hnR) ▸ hstep.2.2⟩
  · intro h
    induction h with
    | refl => exact Relation.ReflTransGen.refl
    | tail hsq hstep ih =>
      rename_i q p'
      have hreach : Reaches b color size s p' := Relation.ReflTransGen.tail hsq hstep
      have hnR : ¬ R p' := fun hR => hdisj p' hR hreach
      exact Relation.ReflTransGen.tail ih ⟨hstep.1, hstep.2.1, (hagree p' hnR).trans hstep.2.2⟩

/-- Locality for the liberty predicate: the removed cells additionally may
not be adjacent to the component. -/
theorem liberty_congr_of_removed {b b' : Board} {color : StoneColor} {size : Nat}
    {R : Point → Prop} {s : Point}
    (hcolor : color ≠ .Empty)
    (hagree : ∀ p, ¬ R p → bget b' p = bget b p)
    (hemptied : ∀ p, R p → bget b' p = .Empty)
    (hdisj : ∀ p, R p → ¬ Reaches b color size s p)
    (hnadj : ∀ x, R x → ∀ y, Reaches b color size s y → x ∉ neighborsOf y) :
    ∀ l, (isInBounds l.r l.c size = true ∧ bget b' l = .Empty ∧
          ∃ p, Reaches b' color size s p ∧ l ∈ neighborsOf p) ↔
        (isInBounds l.r l.c size = true ∧ bget b l = .Empty ∧
          ∃ p, Reaches b color size s p ∧ l ∈ neighborsOf p) := by
  intro l
  constructor
  · rintro ⟨h1, h2, p, hp, h3⟩
    have hpb : Reaches b color size s p :=
      (reaches_congr_of_removed hcolor hagree hemptied hdisj p).mp hp
    have hnR : ¬ R l := fun hR => hnadj l hR p hpb h3
    exact ⟨h1, (hagree l hnR) ▸ h2, p, hpb, h3⟩
  · rintro ⟨h1, h2, p, hp, h3⟩
    have hnR : ¬ R l := fun hR => hnadj l hR p hp h3
    exact ⟨h1, (hagree l hnR).trans h2, p,
      (reaches_congr_of_removed hcolor hagree hemptied hdisj p).mpr hp, h3⟩

/-- The group-removal inner loop of `applyMove`'s capture step: removes
every stone of a duplicate-free, non-empty-celled list and records each
once, in order. -/
theorem removal_fold (bd : Board) (caps : List Point) (G : List Point)
    (hsq : IsSquare bd) (hnodup : G.Nodup)
    (hcells : ∀ g ∈ G, isInBounds g.r g.c bd.length = true ∧ bget bd g ≠ .Empty) :
    (G.foldl (fun (st2 : Board × List Point) stone =>
        if bget st2.1 stone ≠ .Empty then (bset st2.1 stone .Empty, st2.2 ++ [stone])
        else st2) (bd, caps)).2 = caps ++ G ∧
    (G.foldl (fun (st2 : Board × List Point) stone =>
        if bget st2.1 stone ≠ .Empty then (bset st2.1 stone .Empty, st2.2 ++ [stone])
        else st2) (bd, caps)).1.length = bd.length ∧
    IsSquare (G.foldl (fun (st2 : Board × List Point) stone =>
        if bget st2.1 stone ≠ .Empty then (bset st2.1 stone .Empty, st2.2 ++ [stone])
        else st2) (bd, caps)).1 ∧
    (∀ p, bget (G.foldl (fun (st2 : Board × List Point) stone =>
        if bget st2.1 stone ≠ .Empty then (bset st2.1 stone .Empty, st2.2 ++ [stone])
        else st2) (bd, caps)).1 p = if p ∈ G then .Empty else bget bd p) := by
  induction G generalizing bd caps with
  | nil => exact ⟨by simp, rfl, hsq, fun p => by simp⟩
  | cons g G' ih =>
    obtain ⟨hg1, hg2⟩ := hcells g (by simp)
    have hstep : (if bget bd g ≠ .Empty then (bset bd g .Empty, caps ++ [g]) else (bd, caps))
        = (bset bd g .Empty, caps ++ [g]) := by rw [if_pos hg2]
    have hgG' : g ∉ G' := (List.nodup_cons.mp hnodup).1
    have hsq1 : IsSquare (bset bd g .Empty) := bset_isSquare hsq g .Empty
    have hlen1 : (bset bd g .Empty).length = bd.length := bset_length bd g .Empty
    have hcells' : ∀ g' ∈ G', isInBounds g'.r g'.c (bset bd g .Empty).length = true ∧
        bget (bset bd g .Empty) g' ≠ .Empty := by
      intro g' hg'
      have hne : g' ≠ g := fun hc => hgG' (hc ▸ hg')
      obtain ⟨h1, h2⟩ := hcells g' (by simp [hg'])
      rw [hlen1, bget_bset_ne hne]
      exact ⟨h1, h2⟩
    obtain ⟨r1, r2, r3, r4⟩ := ih (bset bd g .Empty) (caps ++ [g])
      hsq1 (List.nodup_cons.mp hnodup).2 hcells'
    simp only [List.foldl_cons, hstep]
    refine ⟨by rw [r1]; simp, by rw [r2, hlen1], r3, ?_⟩
    intro p
    rw [r4 p]
    by_cases hpG : p ∈ G'
    · simp [hpG]
    · by_cases hpg : p = g
      · subst hpg
        simp only [hpG, if_false, List.mem_cons, true_or, if_true]
        exact bget_bset_self hsq hg1 .Empty
      · simp only [hpG, if_false]
        rw [bget_bset_ne hpg]
        have : p ∉ g :: G' := by simp [hpg, hpG]
        simp [this]

theorem removedBy_props {P : Board} {opp : StoneColor} {size : Nat} {ns : List Point}
    {p : Point} (h : RemovedBy P opp size ns p) :
    isInBounds p.r p.c size = true ∧ bget P p = opp := by
  obtain ⟨n, -, h1, h2, -, hr⟩ := h
  exact reaches_props ⟨h1, h2⟩ hr

theorem removedBy_closed {P : Board} {opp : StoneColor} {size : Nat} {ns : List Point}
    {n p : Point} (hn : RemovedBy P opp size ns n) (hr : Reaches P opp size n p) :
    RemovedBy P opp size ns p := by
  obtain ⟨m, hmem, h1, h2, h3, hreach⟩ := hn
  exact ⟨m, hmem, h1, h2, h3, Relation.ReflTransGen.trans hreach hr⟩

theorem removedBy_of_reaches_common {P : Board} {opp : StoneColor} {size : Nat}
    {ns : List Point} {n p : Point}
    (hnprops : isInBounds n.r n.c size = true ∧ bget P n = opp)
    (hp : RemovedBy P opp size ns p) (hr : Reaches P opp size n p) :
    RemovedBy P opp size ns n :=
  removedBy_closed hp (reaches_symm hnprops hr)

theorem removedBy_append_iff {P : Board} {opp : StoneColor} {size : Nat}
    {ns : List Point} {n p : Point} :
    RemovedBy P opp size (ns ++ [n]) p ↔
      RemovedBy P opp size ns p ∨
        (isInBounds n.r n.c size = true ∧ bget P n = opp ∧
          (getGroupAndLiberties P n.r n.c).liberties = [] ∧ Reaches P opp size n p) := by
  constructor
  · rintro ⟨m, hmem, h1, h2, h3, hr⟩
    rcases List.mem_append.mp hmem with h | h
    · exact Or.inl ⟨m, h, h1, h2, h3, hr⟩
    · obtain rfl : m = n := by simpa using h
      exact Or.inr ⟨h1, h2, h3, hr⟩
  · rintro (⟨m, hmem, h1, h2, h3, hr⟩ | ⟨h1, h2, h3, hr⟩)
    · exact ⟨m, List.mem_append_left _ hmem, h1, h2, h3, hr⟩
    · exact ⟨n, by simp, h1, h2, h3, hr⟩

theorem captureStep_inv (P : Board) (opp : StoneColor) (size : Nat)
    (hopp : opp ≠ .Empty) (hsize : size = P.length)
    (ns : List Point) (bd : Board) (caps : List Point) (n : Point)
    (hinv : CapInv P opp size ns bd caps) :
    CapInv P opp size (ns ++ [n])
      (captureStep size opp (bd, caps) n).1
      (captureStep size opp (bd, caps) n).2 := by
  have hlenbd : bd.length = size := hinv.len.trans hsize.symm
  unfold captureStep
  by_cases hcond : isInBounds n.r n.c size = true ∧ bget bd n = opp
  · rw [if_pos hcond]
    obtain ⟨hinb, hbdn⟩ := hcond
    have hnotRm : ¬ RemovedBy P opp size ns n := by
      intro hc
      rw [hinv.removed_empty n hc] at hbdn
      exact hopp hbdn.symm
    have hPn : bget P n = opp := (hinv.not_removed n hnotRm).symm.trans hbdn
    have hdisj : ∀ p, RemovedBy P opp size ns p → ¬ Reaches P opp size n p :=
      fun p hp hr => hnotRm (removedBy_of_reaches_common ⟨hinb, hPn⟩ hp hr)
    have hnadj : ∀ x, RemovedBy P opp size ns x → ∀ y, Reaches P opp size n y →
        x ∉ neighborsOf y := by
      intro x hx y hy hmem
      have hxprops := removedBy_props hx
      exact hdisj x hx (Relation.ReflTransGen.tail hy ⟨hmem, hxprops.1, hxprops.2⟩)
    have hreach_iff : ∀ p, Reaches bd opp size n p ↔ Reaches P opp size n p :=
      reaches_congr_of_removed hopp hinv.not_removed hinv.removed_empty hdisj
    have hinb_bd : isInBounds n.r n.c bd.length = true := by rw [hlenbd]; exact hinb
    have hinb_P : isInBounds n.r n.c P.length = true := by rw [← hsize]; exact hinb
    have hcol_bd : bget bd n ≠ .Empty := by rw [hbdn]; exact hopp
    have hcol_P : bget P n ≠ .Empty := by rw [hPn]; exact hopp
    have spec_bd := getGroupAndLiberties_spec bd n hinb_bd hcol_bd
    rw [hbdn, hlenbd] at spec_bd
    have spec_P := getGroupAndLiberties_spec P n hinb_P hcol_P
    rw [hPn, ← hsize] at spec_P
    have hgroup_iff : ∀ p, p ∈ (getGroupAndLiberties bd n.r n.c).group ↔
        Reaches P opp size n p :=
      fun p => (spec_bd.2.1 p).trans (hreach_iff p)
    have hlibpred := liberty_congr_of_removed hopp hinv.not_removed hinv.removed_empty
      hdisj hnadj
    have hlib_iff : (getGroupAndLiberties bd n.r n.c).liberties = [] ↔
        (getGroupAndLiberties P n.r n.c).liberties = [] := by
      rw [List.eq_nil_iff_forall_not_mem, List.eq_nil_iff_forall_not_mem]
      constructor
      · intro h l hl
        exact h l ((spec_bd.2.2.2 l).mpr ((hlibpred l).mpr ((spec_P.2.2.2 l).mp hl)))
      · intro h l hl
        exact h l ((spec_P.2.2.2 l).mpr ((hlibpred l).mp ((spec_bd.2.2.2 l).mp hl)))
    by_cases hlibbd : (getGroupAndLiberties bd n.r n.c).liberties = []
    · rw [if_pos hlibbd]
      have hlibP : (getGroupAndLiberties P n.r n.c).liberties = [] := hlib_iff.mp hlibbd
      have hcells : ∀ g ∈ (getGroupAndLiberties bd n.r n.c).group,
          isInBounds g.r g.c bd.length = true ∧ bget bd g ≠ .Empty := by
        intro g hg
        have hrP : Reaches P opp size n g := (hgroup_iff g).mp hg
        have hRnot : ¬ RemovedBy P opp size ns g := fun hc => hdisj g hc hrP
        have hprops := reaches_props ⟨hinb, hPn⟩ hrP
        refine ⟨by rw [hlenbd]; exact hprops.1, ?_⟩
        rw [hinv.not_removed g hRnot, hprops.2]
        exact hopp
      obtain ⟨r1, r2, r3, r4⟩ := removal_fold bd caps (getGroupAndLiberties bd n.r n.c).group
        hinv.sq spec_bd.1 hcells
      have hdec : ∀ p, RemovedBy P opp size (ns ++ [n]) p ↔
          RemovedBy P opp size ns p ∨ Reaches P opp size n p := by
        intro p
        rw [removedBy_append_iff]
        constructor
        · rintro (h | ⟨-, -, -, h⟩)
          · exact Or.inl h
          · exact Or.inr h
        · rintro (h | h)
          · exact Or.inl h
          · exact Or.inr ⟨hinb, hPn, hlibP, h⟩
      refine ⟨r2.trans hinv.len, r3, ?_, ?_, ?_, ?_⟩
      · intro p hp
        rw [r4 p]
        rcases (hdec p).mp hp with h | h
        · have hpng : p ∉ (getGroupAndLiberties bd n.r n.c).group :=
            fun hc => hdisj p h ((hgroup_iff p).mp hc)
          rw [if_neg hpng]
          exact hinv.removed_empty p h
        · rw [if_pos ((hgroup_iff p).mpr h)]
      · intro p hp
        rw [hdec p] at hp
        push_neg at hp
        rw [r4 p, if_neg (fun hc => hp.2 ((hgroup_iff p).mp hc))]
        exact hinv.not_removed p hp.1
      · intro p
        rw [r1, List.mem_append, hdec p, hinv.caps_iff p, hgroup_iff p]
      · rw [r1]
        refine List.Nodup.append hinv.caps_nodup spec_bd.1 ?_
        intro p hp hpg
        have h1 := hinv.removed_empty p ((hinv.caps_iff p).mp hp)
        have h2 := (hcells p hpg).2
        exact h2 h1
    · rw [if_neg hlibbd]
      have hsame : ∀ p, RemovedBy P opp size (ns ++ [n]) p ↔ RemovedBy P opp size ns p := by
        intro p
        rw [removedBy_append_iff]
        constructor
        · rintro (h | ⟨-, -, hlib, -⟩)
          · exact h
          · exact absurd (hlib_iff.mpr hlib) hlibbd
        · exact Or.inl
      exact ⟨hinv.len, hinv.sq, fun p hp => hinv.removed_empty p ((hsame p).mp hp),
        fun p hp => hinv.not_removed p (fun hc => hp ((hsame p).mpr hc)),
        fun p => (hinv.caps_iff p).trans (hsame p).symm, hinv.caps_nodup⟩
  · rw [if_neg hcond]
    have hsame : ∀ p, RemovedBy P opp size (ns ++ [n]) p ↔ RemovedBy P opp size ns p := by
      intro p
      rw [removedBy_append_iff]
      constructor
      · rintro (h | ⟨hinb, hPn, hlib, hr⟩)
        · exact h
        · by_cases hRm : RemovedBy P opp size ns n
          · exact removedBy_closed hRm hr
          · exfalso
            exact hcond ⟨hinb, (hinv.not_removed n hRm).trans hPn⟩
      · exact Or.inl
    exact ⟨hinv.len, hinv.sq, fun p hp => hinv.removed_empty p ((hsame p).mp hp),
      fun p hp => hinv.not_removed p (fun hc => hp ((hsame p).mpr hc)),
      fun p => (hinv.caps_iff p).trans (hsame p).symm, hinv.caps_nodup⟩

theorem captureFold_inv (P : Board) (opp : StoneColor) (size : Nat)
    (hopp : opp ≠ .Empty) (hsize : size = P.length) :
    ∀ (ms ns : List Point) (bd : Board) (caps : List Point),
      CapInv P opp size ns bd caps →
      CapInv P opp size (ns ++ ms)
        (ms.foldl (captureStep size opp) (bd, caps)).1
        (ms.foldl (captureStep size opp) (bd, caps)).2 := by
  intro ms
  induction ms with
  | nil =>
    intro ns bd caps hinv
    simpa using hinv
  | cons m ms ih =>
    intro ns bd caps hinv
    have hstep := captureStep_inv P opp size hopp hsize ns bd caps m hinv
    have hres := ih (ns ++ [m]) (captureStep size opp (bd, caps) m).1
      (captureStep size opp (bd, caps) m).2 hstep
    have heq : ns ++ [m] ++ ms = ns ++ m :: ms := by simp
    rw [heq] at hres
    simpa using hres

/-- **C2.**  For every accepted placement (square board), the captured
list has no duplicates, and each orthogonally adjacent opponent group
whose liberties are zero on the board-with-stone-placed is removed from
the returned board in its entirety, with every stone of it recorded in
the captured list exactly once. -/
theorem applyMove_capture_correct (board : Board) (player : StoneColor) (coord : Point)
    (ko : KoState)
    (hsq : IsSquare board)
    (hp : player = .Black ∨ player = .White)
    (hok : (applyMove board player coord ko).error = none) :
    (applyMove board player coord ko).stonesCapturedInThisMove.Nodup ∧
    ∀ n ∈ neighborsOf coord, isInBounds n.r n.c board.length = true →
      bget (bset board coord player) n = opponentColorOf player →
      (getGroupAndLiberties (bset board coord player) n.r n.c).liberties = [] →
      ∀ p ∈ (getGroupAndLiberties (bset board coord player) n.r n.c).group,
        bget (applyMove board player coord ko).newBoard p = .Empty ∧
        (applyMove board player coord ko).stonesCapturedInThisMove.count p = 1 := by
  have hopp : opponentColorOf player ≠ .Empty := by
    rcases hp with h | h <;> subst h <;> simp [opponentColorOf]
  have hPlen : (bset board coord player).length = board.length := bset_length _ _ _
  have hPsq : IsSquare (bset board coord player) := bset_isSquare hsq coord player
  have hsize : board.length = (bset board coord player).length := hPlen.symm
  have hinit : CapInv (bset board coord player) (opponentColorOf player) board.length []
      (bset board coord player) [] := by
    refine ⟨rfl, hPsq, ?_, fun p _ => rfl, ?_, by simp⟩
    · rintro p ⟨n, hn, -⟩
      simp at hn
    · intro p
      simp only [List.not_mem_nil, false_iff]
      rintro ⟨n, hn, -⟩
      simp at hn
  have hfold := captureFold_inv (bset board coord player) (opponentColorOf player)
    board.length hopp hsize (neighborsOf coord) [] (bset board coord player) [] hinit
  simp only [List.nil_append] at hfold
  rw [applyMove_success_eq board player coord ko hok]
  have hpost : postCaptureState board player coord =
      (neighborsOf coord).foldl (captureStep board.length (opponentColorOf player))
        (bset board coord player, []) := rfl
  constructor
  · exact hfold.caps_nodup
  · intro n hn hinb hoppn hlib p hpg
    have hinbP : isInBounds n.r n.c (bset board coord player).length = true := by
      rw [hPlen]; exact hinb
    have hcolP : bget (bset board coord player) n ≠ .Empty := by
      rw [hoppn]; exact hopp
    have spec_P := getGroupAndLiberties_spec (bset board coord player) n hinbP hcolP
    rw [hoppn, hPlen] at spec_P
    have hreach : Reaches (bset board coord player) (opponentColorOf player)
        board.length n p := (spec_P.2.1 p).mp hpg
    have hRm : RemovedBy (bset board coord player) (opponentColorOf player)
        board.length (neighborsOf coord) p := ⟨n, hn, hinb, hoppn, hlib, hreach⟩
    have hmem : p ∈ (postCaptureState board player coord).2 := by
      rw [hpost]
      exact (hfold.caps_iff p).mpr hRm
    refine ⟨?_, ?_⟩
    · show bget (postCaptureState board player coord).1 p = .Empty
      rw [hpost]
      exact hfold.removed_empty p hRm
    · exact List.count_eq_one_of_mem hfold.caps_nodup hmem

/-- Witness for C2: on the 2×2 board `[[W,B],[E,E]]`, Black plays (1,0);
the White stone at (0,0) loses its last liberty, is removed from the
board, and appears in the captured list exactly once. -/
theorem applyMove_capture_correct_witness :
    (applyMove [[.White, .Black], [.Empty, .Empty]] .Black ⟨1, 0⟩
        ⟨none, none⟩).stonesCapturedInThisMove.Nodup ∧
    bget (applyMove [[.White, .Black], [.Empty, .Empty]] .Black ⟨1, 0⟩
        ⟨none, none⟩).newBoard ⟨0, 0⟩ = .Empty ∧
    (applyMove [[.White, .Black], [.Empty, .Empty]] .Black ⟨1, 0⟩
        ⟨none, none⟩).stonesCapturedInThisMove.count ⟨0, 0⟩ = 1 := by
  have h := applyMove_capture_correct [[.White, .Black], [.Empty, .Empty]] .Black ⟨1, 0⟩
    ⟨none, none⟩ (by intro row hrow; simp at hrow; rcases hrow with h | h <;> simp [h])
    (Or.inl rfl) rfl
  have h2 := h.2 ⟨0, 0⟩ (by simp [neighborsOf]) (by decide) (by decide) (by decide)
    ⟨0, 0⟩ (by decide)
  exact ⟨h.1, h2.1, h2.2⟩

/-!
## SGF parsing

The raw recursive-descent parser (`parseSgfNodesRecursive`,
`parseSgfIntoSequence`) and the resolution pass
(`convertSgfSequenceToGameTree`, `parseSgf`) of `goLogic.ts`.  The
character-index loops of the source become functions over `List Char`; a
fuel parameter models the loops' progress, with `none` denoting the one
input family on which the source loop never terminates (a `[` with no
preceding property name).  The mutable `parent` pointers used to attach
variations become an explicit "extras" result: variation blocks parsed
before any node of a sequence belong to the enclosing node and are
returned to the caller for attachment.  Node ids (random in the source)
carry no game content and are dropped; tree structure holds parentage.
-/

theorem parseValChars_length_le : ∀ (cs : List Char) (e : Bool) (acc : String),
    (parseValChars cs e acc).2.length ≤ cs.length := by
  intro cs
  induction cs with
  | nil => intro e acc; simp [parseValChars]
  | cons ch rest ih =>
    intro e acc
    cases e with
    | true =>
      calc (parseValChars rest false (acc.push ch)).2.length ≤ rest.length := ih _ _
        _ ≤ (ch :: rest).length := by simp
    | false =>
      unfold parseValChars
      split_ifs with h1 h2
      · calc (parseValChars rest true acc).2.length ≤ rest.length := ih _ _
          _ ≤ (ch :: rest).length := by simp
      · simp
      · calc (parseValChars rest false (acc.push ch)).2.length ≤ rest.length := ih _ _
          _ ≤ (ch :: rest).length := by simp

theorem dropCloseBracket_length_le (cs : List Char) :
    (dropCloseBracket cs).length ≤ cs.length := by
  unfold dropCloseBracket
  split <;> simp

theorem determineBoardSize_pos (seq : List SgfNode) : 0 < determineBoardSize seq := by
  unfold determineBoardSize
  rcases hsel : selectSzProp seq with _ | vals <;> simp only [hsel]
  · simp [DEFAULT_BOARD_SIZE]
  · rcases hpi : parseIntOpt (vals.headD "") with _ | n <;> simp only [hpi]
    · simp [DEFAULT_BOARD_SIZE]
    · split_ifs with hpos
      · omega
      · simp [DEFAULT_BOARD_SIZE]

theorem parseSgfFromSeq_size_null (fuel : Nat) (seq : List SgfNode)
    (hsz : determineBoardSize seq < 2 ∨ 52 < determineBoardSize seq) :
    parseSgfFromSeq fuel seq = none := by
  match seq with
  | [] => rfl
  | rootSgfNode :: rest =>
    have hpos := determineBoardSize_pos (rootSgfNode :: rest)
    simp only [parseSgfFromSeq]
    rcases hsz with hlt | hgt
    · rw [if_neg (by omega), if_pos ⟨hlt, by omega⟩]
    · rw [if_pos hgt]

/-- **C6.**  `parseSgf` returns null — never a partial game tree —
whenever the raw parse finds no SGF node at all (the `null` of
`parseSgfIntoSequence`), and whenever the board size determined from the
`SZ` property falls outside 2..52. -/
theorem parseSgf_null_cases :
    (∀ s, parseSgfIntoSequence s = some none → parseSgf s = some none) ∧
    (∀ s seq, parseSgfIntoSequence s = some (some seq) →
      (determineBoardSize seq < 2 ∨ 52 < determineBoardSize seq) →
      parseSgf s = some none) := by
  constructor
  · intro s h
    unfold parseSgf
    rw [h]
  · intro s seq h hsz
    unfold parseSgf
    rw [h]
    show some (parseSgfFromSeq (parseSgfFuel (s.length + 2)) seq) = some none
    rw [parseSgfFromSeq_size_null (parseSgfFuel (s.length + 2)) seq hsz]

/-- Witness for C6: an input with no node at all, and an input whose `SZ`
gives board size 1, both load as null. -/
theorem parseSgf_null_cases_witness :
    parseSgf "hello" = some none ∧ parseSgf "(;SZ[1])" = some none :=
  ⟨parseSgf_null_cases.1 "hello" rfl,
   parseSgf_null_cases.2 "(;SZ[1])" [⟨[("SZ", ["1"])], []⟩] rfl (Or.inl (by decide))⟩

/-- **C7, counterexample to the claim as stated.**  The claim says a
decoded pair inside `[0, board size)` is applied as an actual move for
every board size.  On a 20×20 board the value "ta" decodes column-first
to column 19, row 0 — inside `[0, 20)` — yet the pipeline returns `none`
(a pass), because `sgfCharToCoord 't' = 19` reaches `SGF_MAX_SIZE = 19`;
parsing `(;SZ[20];B[ta])` indeed yields a Black node with a null coord. -/
theorem moveCoord_inside_but_pass :
    sgfCharToCoord 't' = 19 ∧ sgfCharToCoord 'a' = 0 ∧
    ((0 : Int) ≤ 19 ∧ (19 : Int) < 20) ∧
    moveCoordOnBoard 20 "ta" = none ∧
    (parseSgf "(;SZ[20];B[ta])").map (Option.map (fun g =>
      g.tree.children.map (fun c => (c.data.player, c.data.coord)))) =
      some (some [(some StoneColor.Black, none)]) :=
  ⟨rfl, rfl, ⟨by norm_num, by norm_num⟩, rfl, rfl⟩

/-- **C7 amended.**  A move-property coordinate value is decoded column
first then row with 'a'→0; it is applied as an actual move exactly when
it is two characters and both decoded indices lie in
`[0, min (board size) SGF_MAX_SIZE)`; every other value — including
decoded pairs outside `[0, board size)`, and, on boards larger than 19,
pairs whose index reaches `SGF_MAX_SIZE = 19` — is treated as a pass. -/
theorem moveCoordOnBoard_spec (size : Nat) (v : String) :
    ∀ p, moveCoordOnBoard size v = some p ↔
      ∃ c0 c1, v.toList = [c0, c1] ∧ p.c = sgfCharToCoord c0 ∧ p.r = sgfCharToCoord c1 ∧
        0 ≤ p.c ∧ 0 ≤ p.r ∧
        p.c < min (size : Int) (SGF_MAX_SIZE : Int) ∧
        p.r < min (size : Int) (SGF_MAX_SIZE : Int) := by
  intro p
  match hv : v.toList with
  | [] =>
    have hnone : sgfCoordToPoint v = none := by unfold sgfCoordToPoint; rw [hv]
    unfold moveCoordOnBoard
    rw [hnone]
    constructor
    · intro h; exact Option.noConfusion h
    · rintro ⟨d0, d1, hl, -⟩; cases hl
  | [c0] =>
    have hnone : sgfCoordToPoint v = none := by unfold sgfCoordToPoint; rw [hv]
    unfold moveCoordOnBoard
    rw [hnone]
    constructor
    · intro h; exact Option.noConfusion h
    · rintro ⟨d0, d1, hl, -⟩; cases hl
  | c0 :: c1 :: c2 :: rest =>
    have hnone : sgfCoordToPoint v = none := by unfold sgfCoordToPoint; rw [hv]
    unfold moveCoordOnBoard
    rw [hnone]
    constructor
    · intro h; exact Option.noConfusion h
    · rintro ⟨d0, d1, hl, -⟩; cases hl
  | [c0, c1] =>
    have heq : sgfCoordToPoint v =
        (if sgfCharToCoord c0 < (SGF_MAX_SIZE : Int) ∧ sgfCharToCoord c1 < (SGF_MAX_SIZE : Int) ∧
            0 ≤ sgfCharToCoord c0 ∧ 0 ≤ sgfCharToCoord c1 then
          some (⟨sgfCharToCoord c1, sgfCharToCoord c0⟩ : Point)
        else none) := by
      unfold sgfCoordToPoint
      rw [hv]
    unfold moveCoordOnBoard
    rw [heq]
    by_cases h1 : sgfCharToCoord c0 < (SGF_MAX_SIZE : Int) ∧
        sgfCharToCoord c1 < (SGF_MAX_SIZE : Int) ∧
        0 ≤ sgfCharToCoord c0 ∧ 0 ≤ sgfCharToCoord c1
    · rw [if_pos h1]
      obtain ⟨hA, hB, hC, hD⟩ := h1
      show (if (size : Int) ≤ sgfCharToCoord c1 ∨ (size : Int) ≤ sgfCharToCoord c0 then none
          else some (⟨sgfCharToCoord c1, sgfCharToCoord c0⟩ : Point)) = some p ↔ _
      by_cases h2 : (size : Int) ≤ sgfCharToCoord c1 ∨ (size : Int) ≤ sgfCharToCoord c0
      · rw [if_pos h2]
        constructor
        · intro h; exact Option.noConfusion h
        · rintro ⟨d0, d1, hl, hc, hr, h0c, h0r, hcb, hrb⟩
          obtain ⟨rfl, rfl⟩ : c0 = d0 ∧ c1 = d1 := by
            injection hl with e1 e2
            injection e2 with e2 _
            exact ⟨e1, e2⟩
          simp only [lt_min_iff] at hcb hrb
          rw [hc] at hcb
          rw [hr] at hrb
          omega
      · rw [if_neg h2]
        push_neg at h2
        constructor
        · intro h
          have hp : p = (⟨sgfCharToCoord c1, sgfCharToCoord c0⟩ : Point) :=
            (Option.some.injEq _ _ ▸ h).symm
          subst hp
          refine ⟨c0, c1, rfl, rfl, rfl, hC, hD, ?_, ?_⟩ <;>
            simp only [lt_min_iff] <;> exact ⟨by omega, by omega⟩
        · rintro ⟨d0, d1, hl, hc, hr, h0c, h0r, hcb, hrb⟩
          obtain ⟨rfl, rfl⟩ : c0 = d0 ∧ c1 = d1 := by
            injection hl with e1 e2
            injection e2 with e2 _
            exact ⟨e1, e2⟩
          cases p with
          | mk pr pc =>
            simp only at hc hr
            rw [hc, hr]
    · rw [if_neg h1]
      constructor
      · intro h; exact Option.noConfusion h
      · rintro ⟨d0, d1, hl, hc, hr, h0c, h0r, hcb, hrb⟩
        obtain ⟨rfl, rfl⟩ : c0 = d0 ∧ c1 = d1 := by
          injection hl with e1 e2
          injection e2 with e2 _
          exact ⟨e1, e2⟩
        simp only [lt_min_iff] at hcb hrb
        rw [hc] at hcb h0c
        rw [hr] at hrb h0r
        exact absurd ⟨by omega, by omega, h0c, h0r⟩ h1

theorem processNode_moveNumber (props : List (String × List String))
    (ctx : ProcessingContext) :
    ((processNode props ctx).1.moveNumber =
      if (processNode props ctx).1.player.isSome then ctx.currentMoveNumber + 1
      else ctx.currentMoveNumber) ∧
    (processNode props ctx).2.currentMoveNumber = (processNode props ctx).1.moveNumber := by
  rcases hB : getProp props "B" with _ | valsB <;>
    rcases hW : getProp props "W" with _ | valsW <;>
      simp [processNode, hB, hW]

theorem convertSeq_moveNumInv :
    ∀ (fuel : Nat) (seq : List SgfNode) (ctx : ProcessingContext) (t : GTree),
      convertSeq fuel seq ctx = some t → MoveNumInv ctx.currentMoveNumber t := by
  intro fuel
  induction fuel with
  | zero => intro seq ctx t h; exact absurd h (by simp [convertSeq])
  | succ fuel ih =>
    intro seq ctx t h
    match seq with
    | [] => exact absurd h (by simp [convertSeq])
    | sgfNode :: restSeq =>
      simp only [convertSeq] at h
      injection h with h
      subst h
      have hp := processNode_moveNumber sgfNode.properties ctx
      refine MoveNumInv.node _ _ _ ?_ ?_
      · exact hp.1
      · intro c hc
        rw [List.mem_append] at hc
        rcases hc with hc | hc
        · rcases hcv : convertSeq fuel restSeq (processNode sgfNode.properties ctx).2
            with _ | t0
          · rw [hcv] at hc; simp at hc
          · rw [hcv] at hc
            simp at hc
            subst hc
            have h2 := ih restSeq _ _ hcv
            rw [hp.2] at h2
            exact h2
        · rw [List.mem_filterMap] at hc
          obtain ⟨vs, hvs, hcv⟩ := hc
          have h2 := ih vs _ c hcv
          rw [hp.2] at h2
          exact h2

theorem parseSgfResolve_tree (fuel : Nat) (root : SgfNode) (seq : List SgfNode)
    (bs : Nat) (g : FullGame) (h : parseSgfResolve fuel root seq bs = some g) :
    convertSeq fuel seq (initialContextOf root.properties bs) = some g.tree := by
  simp only [parseSgfResolve] at h
  split at h
  · exact absurd h (by simp)
  · rename_i tree hcv
    injection h with h
    rw [← h]
    exact hcv

theorem parseSgf_moveNumInv (s : String) (g : FullGame)
    (h : parseSgf s = some (some g)) : MoveNumInv 0 g.tree := by
  rcases hseq : parseSgfIntoSequence s with _ | og
  · exact absurd h (by simp [parseSgf, hseq])
  rcases og with _ | seq
  · exact absurd h (by simp [parseSgf, hseq])
  simp only [parseSgf, hseq, Option.some.injEq] at h
  match seq, h with
  | rootSgfNode :: rest, h =>
    simp only [parseSgfFromSeq] at h
    split_ifs at h <;>
      exact convertSeq_moveNumInv _ _ _ _
        (parseSgfResolve_tree _ rootSgfNode (rootSgfNode :: rest) _ g h)

/-- **C8.**  Move numbering: in every game tree `parseSgf` loads, a node
with a player has its parent's move number plus one and a node without a
player inherits its parent's move number, the root counting from 0; and
a node created by playing a move on the board has its player set and its
parent's move number plus one. -/
theorem moveNumber_invariant :
    (∀ (s : String) (g : FullGame), parseSgf s = some (some g) → MoveNumInv 0 g.tree) ∧
    (∀ (newNodeId currentNodeId : String) (pl : StoneColor) (pt : Point)
        (parent : GameTreeNode) (mr : ApplyMoveResult),
      (makePlayedNode newNodeId currentNodeId pl pt parent mr).moveNumber
        = parent.moveNumber + 1 ∧
      (makePlayedNode newNodeId currentNodeId pl pt parent mr).player = some pl) :=
  ⟨parseSgf_moveNumInv, fun _ _ _ _ _ _ => ⟨rfl, rfl⟩⟩

/-- Witness for C8: the hypothesis is satisfiable — `(;SZ[2];B[aa])`
loads, and its tree carries the invariant. -/
theorem moveNumber_invariant_witness : MoveNumInv 0 gameOfSzTwo.tree :=
  moveNumber_invariant.1 "(;SZ[2];B[aa])" gameOfSzTwo rfl

/-- **C9.**  After a successfully played move is appended under a
parent, the new node's id is the parent's first child id, the parent's
`isMainLineNext` flag is true, and — when the id is fresh — the
previously existing children follow in order, shifted right. -/
theorem appendMove_mainline (newNodeId currentNodeId : String) (pl : StoneColor)
    (pt : Point) (parent : GameTreeNode) (mr : ApplyMoveResult)
    (_he : mr.error = none) :
    (appendChildAsMainLine parent
        (makePlayedNode newNodeId currentNodeId pl pt parent mr).id).childrenIds.head?
      = some (makePlayedNode newNodeId currentNodeId pl pt parent mr).id ∧
    (appendChildAsMainLine parent
        (makePlayedNode newNodeId currentNodeId pl pt parent mr).id).isMainLineNext
      = true ∧
    ((makePlayedNode newNodeId currentNodeId pl pt parent mr).id ∉ parent.childrenIds →
      (appendChildAsMainLine parent
          (makePlayedNode newNodeId currentNodeId pl pt parent mr).id).childrenIds
        = (makePlayedNode newNodeId currentNodeId pl pt parent mr).id
            :: parent.childrenIds) := by
  refine ⟨rfl, rfl, fun hnot => ?_⟩
  show newNodeId :: parent.childrenIds.filter (fun i => i ≠ newNodeId)
      = newNodeId :: parent.childrenIds
  congr 1
  apply List.filter_eq_self.mpr
  intro a ha
  simp only [ne_eq, decide_eq_true_eq]
  exact fun e => hnot (e ▸ ha)

/-- Witness for C9: playing Black (0,0) on an empty 2×2 board under a
parent with one existing child puts the new id first, keeps the old
child, and sets the flag. -/
theorem appendMove_mainline_witness :
    (appendChildAsMainLine parentNodeC9
        (makePlayedNode "n1" "n0" .Black ⟨0, 0⟩ parentNodeC9 moveResultC9).id).childrenIds.head?
      = some (makePlayedNode "n1" "n0" .Black ⟨0, 0⟩ parentNodeC9 moveResultC9).id ∧
    (appendChildAsMainLine parentNodeC9
        (makePlayedNode "n1" "n0" .Black ⟨0, 0⟩ parentNodeC9 moveResultC9).id).isMainLineNext
      = true ∧
    ((makePlayedNode "n1" "n0" .Black ⟨0, 0⟩ parentNodeC9 moveResultC9).id
        ∉ parentNodeC9.childrenIds →
      (appendChildAsMainLine parentNodeC9
          (makePlayedNode "n1" "n0" .Black ⟨0, 0⟩ parentNodeC9 moveResultC9).id).childrenIds
        = (makePlayedNode "n1" "n0" .Black ⟨0, 0⟩ parentNodeC9 moveResultC9).id
            :: parentNodeC9.childrenIds) :=
  appendMove_mainline "n1" "n0" .Black ⟨0, 0⟩ parentNodeC9 moveResultC9 rfl

end GoViewer
